import Mathlib

/-!
Verification of the powpow text-utility library (src/powpow/unixy.py).

The development shallowly embeds the matching core: texts and patterns are
`List Char`, file reading is an explicit function argument, and every
operation of `grep`, `GrepResult`, `cat` and `CatResult` that the claims
touch is translated as a computable Lean function.  Match spans are pairs
`(start, stop)` of character offsets, as produced by `re.finditer`.
Recursive scanners take an explicit fuel argument, always called with
enough fuel for the scan to run to completion, so that every definition
reduces by computation.
-/

/-- Python slice `t[s:e]` for `0 ≤ s ≤ e` (clamping at the end of the list,
exactly as Python slicing does). -/
def sliceL (t : List Char) (s e : Nat) : List Char :=
  (t.drop s).take (e - s)

/-- Scanner of `re.finditer(re.escape(pattern), text)`: at each offset, a
match of the literal pattern is emitted and the scan resumes right after
its end, otherwise the scan advances one character.  `pos` is the absolute
offset of the head of `t`; `fuel ≥ t.length` makes the fuel inexhaustible
for non-empty patterns. -/
def findIterF (p : List Char) : Nat → List Char → Nat → List (Nat × Nat)
  | 0, _, _ => []
  | _, [], _ => []
  | fuel + 1, c :: rest, pos =>
    if p.isPrefixOf (c :: rest) then
      (pos, pos + p.length) :: findIterF p fuel (rest.drop (p.length - 1)) (pos + p.length)
    else
      findIterF p fuel rest (pos + 1)

/-- `grep._match` (unixy.py:64-71): `list(re.finditer(re.escape(pattern),
text))`.  The escaped pattern matches literally; `finditer` scans left to
right and resumes immediately after the end of each match, so the spans
are the leftmost non-overlapping occurrences. -/
def grepMatch (pattern text : List Char) : List (Nat × Nat) :=
  findIterF pattern text.length text 0

/-- Offsets of the newline characters of `t`, shifted by `ofs`
(`nlPos t 0` lists every index `j` with `t[j] = '\n'`, in ascending order). -/
def nlPos : List Char → Nat → List Nat
  | [], _ => []
  | c :: rest, i => if c = '\n' then i :: nlPos rest (i + 1) else nlPos rest (i + 1)

/-- Start offsets of the matches of `re.finditer('$', input, re.MULTILINE)`
(unixy.py:152): one position right before each newline, plus the end of the
string. -/
def dollars (t : List Char) : List Nat :=
  nlPos t 0 ++ [t.length]

/-- Start offsets of the matches of `re.finditer('^.*$', input, re.MULTILINE)`
(unixy.py:175, 191): offset 0 plus the position right after each newline. -/
def lineStarts (t : List Char) : List Nat :=
  0 :: (nlPos t 0).map (· + 1)

/-- The `(m.start(), m.end())` spans of `re.finditer('^.*$', input,
re.MULTILINE)`: each line's content without its newline (unixy.py:189-191). -/
def lineSpansRaw (t : List Char) : List (Nat × Nat) :=
  (lineStarts t).zip (dollars t)

/-- The `line_spans` of `matched_lines` (unixy.py:173-175): the `'^.*$'`
spans with the end pushed one past the newline (`m.end() + 1`). -/
def lineSpansCat (t : List Char) : List (Nat × Nat) :=
  (lineSpansRaw t).map (fun sd => (sd.1, sd.2 + 1))

/-- Zero-based index of the line containing offset `q`: the number of
newline characters strictly before `q`. -/
def lineIdx (t : List Char) (q : Nat) : Nat :=
  (nlPos t 0).countP (fun j => decide (j < q))

/-- The `while not (start <= match.start() < end)` loop of `line_matches`
(unixy.py:156-166), with the rest of the `'$'` iterator made explicit as
`ds`.  Emits `(line_idx, match)` pairs in scan order.  When the iterator is
exhausted the source would raise `StopIteration`; that state is unreachable
for span lists sorted by start with starts below the final boundary
`t.length + 1`, which is all the matcher ever produces, and is rendered
here as the empty remainder.  Every step consumes a boundary or a match,
so `fuel ≥ ds.length + ms.length` is inexhaustible. -/
def lineScanF : Nat → List Nat → Nat → Nat → Nat → List (Nat × Nat) → List (Nat × (Nat × Nat))
  | _, _, _, _, _, [] => []
  | 0, _, _, _, _, _ :: _ => []
  | fuel + 1, ds, li, s, e, m :: ms =>
    if s ≤ m.1 ∧ m.1 < e then
      (li, m) :: lineScanF fuel ds li s e ms
    else
      match ds with
      | [] => []
      | d :: ds2 => lineScanF fuel ds2 (li + 1) e (d + 1) (m :: ms)

/-- The `line_matches` loop from its initial state: `line_idx = 0`,
`start = 0`, `end = next(newline_iterator).start() + 1` (unixy.py:156-158).
`dollars t` is never empty (it always ends with `t.length`), so the first
branch is the one the source takes. -/
def lineScanInit (t : List Char) (ms : List (Nat × Nat)) : List (Nat × (Nat × Nat)) :=
  match dollars t with
  | [] => []
  | d :: ds => lineScanF (ds.length + ms.length) ds 0 0 (d + 1) ms

/-- Grouping of `(key, value)` pairs into `defaultdict(list)` insertion
order (unixy.py:154-168).  The scan emits its keys in non-decreasing
order, so grouping equal consecutive keys coincides with Python's dict
grouping. -/
def groupPairs {α : Type} : List (Nat × α) → List (Nat × List α)
  | [] => []
  | (k, v) :: rest =>
    match groupPairs rest with
    | [] => [(k, [v])]
    | (k2, vs) :: gs =>
      if k = k2 then (k, v :: vs) :: gs else (k, [v]) :: (k2, vs) :: gs

/-- `GrepResult.line_matches` (unixy.py:150-168): mapping from line index to
the matches falling on that line, as an association list in key order. -/
def lineMatchesOf (t : List Char) (ms : List (Nat × Nat)) : List (Nat × List (Nat × Nat)) :=
  groupPairs (lineScanInit t ms)

/-- `GrepResult.matched_lines` (unixy.py:170-184): for each key of
`line_matches`, in order, the slice of the input at that line's
`line_spans` entry (newline included). -/
def matchedLinesOf (t : List Char) (ms : List (Nat × Nat)) : List (List Char) :=
  (lineMatchesOf t ms).map (fun g =>
    sliceL t ((lineSpansCat t).getD g.1 (0, 0)).1 ((lineSpansCat t).getD g.1 (0, 0)).2)

/-- `GrepResult.__str__` (unixy.py:107-112): concatenation of the matched
lines. -/
def grepStrOf (t : List Char) (ms : List (Nat × Nat)) : List Char :=
  (matchedLinesOf t ms).flatten

/-- The ANSI escape character `'\u001b'`. -/
def escChar : Char := Char.ofNat 27

/-- `ANSI_RED = '\u001b[31m'` (unixy.py:16). -/
def ansiRed : List Char := [escChar, '[', '3', '1', 'm']

/-- `ANSI_RESET = '\u001b[0m'` (unixy.py:17). -/
def ansiReset : List Char := [escChar, '[', '0', 'm']

/-- Inner loop of `GrepResult._colorized` for one matched line
(unixy.py:195-208): `d` is the line's raw `'^.*$'` end, `start` the current
write position; each match contributes the gap before it, the red marker,
the matched slice and the reset marker, and the line closes with
`input[start:end + 1]`. -/
def colorizeLine (t : List Char) (d : Nat) : Nat → List (Nat × Nat) → List Char
  | start, [] => sliceL t start (d + 1)
  | start, m :: rest =>
    sliceL t start m.1 ++ ansiRed ++ sliceL t m.1 m.2 ++ ansiReset
      ++ colorizeLine t d m.2 rest

/-- `GrepResult._colorized` (unixy.py:186-209): the per-line colorings of
every matched line, concatenated. -/
def colorizedOf (t : List Char) (ms : List (Nat × Nat)) : List Char :=
  ((lineMatchesOf t ms).map (fun g =>
    colorizeLine t ((lineSpansRaw t).getD g.1 (0, 0)).2
      ((lineSpansRaw t).getD g.1 (0, 0)).1 g.2)).flatten

/-- Deletion of every occurrence of `ANSI_RED` and `ANSI_RESET` from a
string, scanning left to right with inexhaustible fuel (`fuel ≥ s.length`).
Occurrences of the two markers never overlap (both put their only escape
character first), so this removes exactly the set of marker occurrences. -/
def stripMarkersF : Nat → List Char → List Char
  | 0, s => s
  | _, [] => []
  | fuel + 1, c :: rest =>
    if ansiRed.isPrefixOf (c :: rest) then stripMarkersF fuel (rest.drop 4)
    else if ansiReset.isPrefixOf (c :: rest) then stripMarkersF fuel (rest.drop 3)
    else c :: stripMarkersF fuel rest

/-- Deletion of every occurrence of the two color markers from a string. -/
def stripMarkers (s : List Char) : List Char :=
  stripMarkersF s.length s

/-- The `grep` matcher (unixy.py:29-47): a literal pattern and a highlight
flag. -/
structure grep where
  pattern : List Char
  highlight : Bool
deriving DecidableEq

/-- `grep.__init__` (unixy.py:42-47): raises `ValueError` on an empty
pattern (`if not pattern`), otherwise stores pattern and flag unchanged. -/
def grepInit (pattern : List Char) (highlight : Bool) : Except String grep :=
  if pattern = [] then
    Except.error "ValueError: Empty pattern is not allowed."
  else
    Except.ok { pattern := pattern, highlight := highlight }

/-- `GrepResult.__init__` state (unixy.py:97-105): pattern, input text,
match spans and the highlight flag. -/
structure GrepResult where
  pattern : List Char
  input : List Char
  «matches» : List (Nat × Nat)
  highlight : Bool
deriving DecidableEq

/-- `GrepResult.__str__` of a result object. -/
def GrepResult.str (r : GrepResult) : List Char :=
  grepStrOf r.input r.«matches»

/-- `GrepResult.matched_lines` of a result object. -/
def GrepResult.matched_lines (r : GrepResult) : List (List Char) :=
  matchedLinesOf r.input r.«matches»

/-- `GrepResult.line_matches` of a result object. -/
def GrepResult.line_matches (r : GrepResult) : List (Nat × List (Nat × Nat)) :=
  lineMatchesOf r.input r.«matches»

/-- `GrepResult._colorized` of a result object. -/
def GrepResult.colorized (r : GrepResult) : List Char :=
  colorizedOf r.input r.«matches»

/-- `GrepResult.__bool__` (unixy.py:120-121): `bool(self._matches)`. -/
def GrepResult.toBool (r : GrepResult) : Bool :=
  !r.«matches».isEmpty

/-- Python `str.rstrip('\n')`: drop every trailing newline. -/
def rstripNl (s : List Char) : List Char :=
  (s.reverse.dropWhile (fun c => c = '\n')).reverse

/-- `GrepResult.__repr__` (unixy.py:114-118). -/
def GrepResult.reprStr (r : GrepResult) : List Char :=
  if r.highlight then rstripNl r.colorized else r.str

/-- `GrepResult.__hash__` (unixy.py:132-136) hashes the pair
`(str(self), self._pattern)`; Python's built-in `hash` of the tuple is an
external primitive, so the result is modelled by the pair itself, the key
the code feeds to it. -/
def GrepResult.hashKey (r : GrepResult) : List Char × List Char :=
  (r.str, r.pattern)

/-- `CatResult` state (unixy.py:238-246): parallel tuples of paths and
contents. -/
structure CatResult where
  paths : List (List Char)
  contents : List (List Char)
deriving DecidableEq

/-- `CatResult.__str__` (unixy.py:248-253): separator-free concatenation of
the contents.  `CatResult.__repr__` (unixy.py:255-256) returns the same
string. -/
def CatResult.str (c : CatResult) : List Char :=
  c.contents.flatten

/-- A value flowing through a pipe: a plain string, a prior `GrepResult`,
or a `CatResult` (the only non-string object the claims feed to `grep`). -/
inductive PipeVal where
  | str (s : List Char)
  | res (r : GrepResult)
  | cat (c : CatResult)
deriving DecidableEq

/-- Python `str()` of a pipe value: identity on strings, `__str__` of
result objects. -/
def pyStr : PipeVal → List Char
  | .str s => s
  | .res r => r.str
  | .cat c => c.str

/-- The text derivation of `grep.__ror__` (unixy.py:49-55): a `GrepResult`
contributes its `str()`, a plain string itself; any other object is
pretty-printed with `pformat`, which for a non-container object such as a
`CatResult` yields its `repr()`, i.e. its joined string. -/
def deriveText : PipeVal → List Char
  | .res r => r.str
  | .str s => s
  | .cat c => c.str

/-- `grep.__ror__` (unixy.py:49-62): derive the text, match, and build the
result object. -/
def grepApply (g : grep) (v : PipeVal) : GrepResult :=
  let text := deriveText v
  { pattern := g.pattern
    input := text
    «matches» := grepMatch g.pattern text
    highlight := g.highlight }

/-- `GrepResult.__eq__` (unixy.py:129-130): `str(self) == str(other)`. -/
def grepResultEq (r : GrepResult) (other : PipeVal) : Prop :=
  r.str = pyStr other

instance (r : GrepResult) (other : PipeVal) : Decidable (grepResultEq r other) := by
  unfold grepResultEq
  infer_instance

/-- `cat` (unixy.py:212-216): read every path in order.  `read_text` is the
file-system collaborator; `none` models a read that raises `OSError`.  The
first failing path aborts the whole prefix-evaluation of
`tuple(p.read_text() for p in _paths)`. -/
def readAll (read_text : List Char → Option (List Char)) :
    List (List Char) → Except (List Char) (List (List Char))
  | [] => Except.ok []
  | q :: qs =>
    match read_text q with
    | none => Except.error q
    | some content =>
      match readAll read_text qs with
      | Except.error e => Except.error e
      | Except.ok rest => Except.ok (content :: rest)

/-- `cat(*paths)`: on success a `CatResult` holding paths and contents in
the given order; on any read failure the error propagates and no result
object is constructed. -/
def catFn (read_text : List Char → Option (List Char)) (paths : List (List Char)) :
    Except (List Char) CatResult :=
  match readAll read_text paths with
  | Except.error e => Except.error e
  | Except.ok contents => Except.ok { paths := paths, contents := contents }

/-- Attribute names defined on `CatResult` instances and their class
(unixy.py:220-297): the fields set in `__init__` plus the properties and
methods.  `_input` is not among them. -/
def catAttrNames : List String :=
  ["_paths", "_contents", "_str", "paths", "contents", "per_file", "json", "file"]

/-- Attribute names of Python `str` objects (the delegation target of
`CatResult.__getattr__`): the public string methods.  None of them is
`_input`. -/
def strAttrNames : List String :=
  ["capitalize", "casefold", "center", "count", "encode", "endswith",
   "expandtabs", "find", "format", "format_map", "index", "isalnum",
   "isalpha", "isascii", "isdecimal", "isdigit", "isidentifier", "islower",
   "isnumeric", "isprintable", "isspace", "istitle", "isupper", "join",
   "ljust", "lower", "lstrip", "maketrans", "partition", "removeprefix",
   "removesuffix", "replace", "rfind", "rindex", "rjust", "rpartition",
   "rsplit", "rstrip", "split", "splitlines", "startswith", "strip",
   "swapcase", "title", "translate", "upper", "zfill"]

/-- Whether an attribute lookup on a `CatResult` succeeds: either the
object or its class defines the name, or the `__getattr__` fallback
(unixy.py:258-259) finds it on the canonical string value. -/
def catAttrFound (name : String) : Bool :=
  catAttrNames.contains name || strAttrNames.contains name

/-- `CatResult.__dir__` (unixy.py:261-262): evaluates `dir(self._input)`.
`_input` is defined neither on the instance nor on `str`, so the lookup
raises `AttributeError` before any list is produced; the `ok` branch is
unreachable. -/
def CatResult.dirOp (_c : CatResult) : Except String (List String) :=
  if catAttrFound "_input" then
    Except.ok (catAttrNames ++ strAttrNames)
  else
    Except.error "AttributeError"

/-- Number of lines of `t` in the ordinary sense (Python `splitlines` with
`'\n'` terminators): one line per `'$'` boundary, except that a trailing
newline does not open a final empty line. -/
def realLines (t : List Char) : Nat :=
  if t = [] then 0
  else if t.getLast? = some '\n' then (dollars t).length - 1
  else (dollars t).length

/-- Start offset of line `k`. -/
def startAt (t : List Char) (k : Nat) : Nat :=
  (lineStarts t).getD k 0

/-- Offset of the `'$'` boundary of line `k` (its newline, or the end of
the text for the last line). -/
def dollarAt (t : List Char) (k : Nat) : Nat :=
  (dollars t).getD k 0

/-- Content of line `k`, without its newline. -/
def lineContent (t : List Char) (k : Nat) : List Char :=
  sliceL t (startAt t k) (dollarAt t k)

/-- Whether `p` occurs as a contiguous substring of `l` (Python `p in l`). -/
def containsSub (p : List Char) : List Char → Bool
  | [] => p.isEmpty
  | l@(_ :: rest) => p.isPrefixOf l || containsSub p rest


/-- The apostrophe character. -/
def apos : Char := Char.ofNat 39

/-- The text of hash scenario 5: `This is what we'll grep`. -/
def hashScenarioText : List Char :=
  "This is what we".toList ++ apos :: "ll grep".toList

/-- The second pattern of hash scenario 5: `we'll`. -/
def hashPattern2 : List Char :=
  "we".toList ++ apos :: "ll".toList

/-- Content of each of the three sources of the cat-then-grep scenario. -/
def greppedLine : List Char := "This will be grepped.\n".toList

/-- File-system collaborator of the cat-then-grep scenario: every path
holds `greppedLine`. -/
def readGrepped : List Char → Option (List Char) := fun _ => some greppedLine

/-- File-system collaborator with a single readable path `a`. -/
def readOnlyA : List Char → Option (List Char) :=
  fun q => if q = "a".toList then some "x".toList else none

theorem lineScanF_nil (fuel : Nat) (ds : List Nat) (li s e : Nat) :
    lineScanF fuel ds li s e [] = [] := by
  cases fuel <;> rfl

theorem lineScanInit_nil (t : List Char) : lineScanInit t [] = [] := by
  unfold lineScanInit
  cases dollars t
  · rfl
  · exact lineScanF_nil _ _ _ _ _

theorem matchedLinesOf_nil (t : List Char) : matchedLinesOf t [] = [] := by
  unfold matchedLinesOf lineMatchesOf
  rw [lineScanInit_nil]
  rfl

theorem grepStrOf_nil (t : List Char) : grepStrOf t [] = [] := by
  unfold grepStrOf
  rw [matchedLinesOf_nil]
  rfl

/-- C2 (counterexample): on input `"this\nis\na\nstring\n"` with pattern
`"i"`, the matched lines are not `["this\n", "is\n"]` — the line
`"string\n"` also contains an `i` and is matched (the repository's own
test `test_finds_matched_lines` expects it). -/
theorem scenario2_counterexample :
    ¬ ((grepApply ⟨"i".toList, true⟩ (.str "this\nis\na\nstring\n".toList)).matched_lines
      = ["this\n".toList, "is\n".toList]) := by
  decide

/-- C2 (amended): applying the matcher with pattern `"i"` to
`"this\nis\na\nstring\n"` yields matched lines exactly
`["this\n", "is\n", "string\n"]`, in ascending line order, each matched
line once, each including its trailing newline. -/
theorem scenario2_matched_lines :
    (grepApply ⟨"i".toList, true⟩ (.str "this\nis\na\nstring\n".toList)).matched_lines
      = ["this\n".toList, "is\n".toList, "string\n".toList] := by
  decide

/-- C5: constructing a matcher fails (with `ValueError`) exactly on the
empty pattern, at construction time; a non-empty pattern is stored
unchanged together with the highlight flag. -/
theorem grep_init_validation (p : List Char) (h : Bool) :
    (p = [] → grepInit p h = Except.error "ValueError: Empty pattern is not allowed.")
    ∧ (p ≠ [] → grepInit p h = Except.ok { pattern := p, highlight := h }) := by
  constructor
  · intro hp
    simp [grepInit, hp]
  · intro hp
    simp [grepInit, hp]

/-- Witness for C5 at the concrete patterns `"a"` and `""`. -/
theorem grep_init_validation_witness :
    ("a".toList ≠ [] ∧ grepInit "a".toList true
        = Except.ok { pattern := "a".toList, highlight := true })
    ∧ (([] : List Char) = []
        ∧ grepInit [] true = Except.error "ValueError: Empty pattern is not allowed.") :=
  ⟨⟨by decide, (grep_init_validation "a".toList true).2 (by decide)⟩,
   ⟨rfl, (grep_init_validation [] true).1 rfl⟩⟩

/-- C6: for every input value, the result of applying a matcher is truthy
iff its match list is non-empty; with zero matches the result is falsy,
its matched-lines sequence is empty and its string value is empty. -/
theorem grep_bool_law (g : grep) (v : PipeVal) :
    ((grepApply g v).toBool = true ↔ (grepApply g v).«matches» ≠ [])
    ∧ ((grepApply g v).«matches» = [] →
        (grepApply g v).toBool = false
        ∧ (grepApply g v).matched_lines = []
        ∧ (grepApply g v).str = []) := by
  constructor
  · simp [GrepResult.toBool]
  · intro hnil
    refine ⟨by simp [GrepResult.toBool, hnil], ?_, ?_⟩
    · unfold GrepResult.matched_lines
      rw [hnil]
      exact matchedLinesOf_nil _
    · unfold GrepResult.str
      rw [hnil]
      exact grepStrOf_nil _

/-- Witness for C6 at pattern `"z"` on text `"a"` (zero matches). -/
theorem grep_bool_law_witness :
    (grepApply ⟨"z".toList, true⟩ (.str "a".toList)).«matches» = []
    ∧ (grepApply ⟨"z".toList, true⟩ (.str "a".toList)).toBool = false
    ∧ (grepApply ⟨"z".toList, true⟩ (.str "a".toList)).matched_lines = []
    ∧ (grepApply ⟨"z".toList, true⟩ (.str "a".toList)).str = [] := by
  have h := (grep_bool_law ⟨"z".toList, true⟩ (.str "a".toList)).2 (by decide)
  exact ⟨by decide, h.1, h.2.1, h.2.2⟩

/-- C7: the hash of a result is derived from the pair (string value,
pattern); the two results of matching `"This"` and `"we'll"` against
`"This is what we'll grep"` have equal string values but different hash
keys, so their hashes differ. -/
theorem grep_hash_distinct :
    (grepApply ⟨"This".toList, true⟩ (.str hashScenarioText)).hashKey
      ≠ (grepApply ⟨hashPattern2, true⟩ (.str hashScenarioText)).hashKey
    ∧ ((grepApply ⟨"This".toList, true⟩ (.str hashScenarioText)).hashKey).1
      = ((grepApply ⟨hashPattern2, true⟩ (.str hashScenarioText)).hashKey).1 := by
  exact ⟨by decide, by decide⟩

theorem readAll_ok (rt : List Char → Option (List Char)) :
    ∀ ps : List (List Char), (∀ q ∈ ps, rt q ≠ none) →
      readAll rt ps = Except.ok (ps.map fun q => (rt q).getD []) := by
  intro ps
  induction ps with
  | nil => intro _; rfl
  | cons a as ih =>
    intro hall
    have ha := hall a (List.mem_cons_self a as)
    cases hrt : rt a with
    | none => exact absurd hrt ha
    | some c =>
      have := ih (fun x hx => hall x (List.mem_cons_of_mem _ hx))
      simp [readAll, hrt, this]

theorem readAll_err (rt : List Char → Option (List Char)) :
    ∀ (ps : List (List Char)) (q : List Char), q ∈ ps → rt q = none →
      ∃ e, readAll rt ps = Except.error e := by
  intro ps
  induction ps with
  | nil =>
    intro q hq
    cases hq
  | cons a as ih =>
    intro q hq hnone
    cases hrt : rt a with
    | none => exact ⟨a, by simp [readAll, hrt]⟩
    | some c =>
      rcases List.mem_cons.mp hq with h1 | h2
      · subst h1
        rw [hrt] at hnone
        cases hnone
      · obtain ⟨e, he⟩ := ih q h2 hnone
        refine ⟨e, ?_⟩
        simp [readAll, hrt, he]

/-- C8: `cat` fails atomically — if any source cannot be read the error
propagates and no result object exists; if all reads succeed it returns a
`CatResult` holding the paths and their contents in the given order. -/
theorem cat_atomic (rt : List Char → Option (List Char)) (ps : List (List Char)) :
    ((∃ q ∈ ps, rt q = none) → ∃ e, catFn rt ps = Except.error e)
    ∧ ((∀ q ∈ ps, rt q ≠ none) →
        catFn rt ps = Except.ok { paths := ps, contents := ps.map fun q => (rt q).getD [] }) := by
  constructor
  · rintro ⟨q, hq, hnone⟩
    obtain ⟨e, he⟩ := readAll_err rt ps q hq hnone
    exact ⟨e, by simp [catFn, he]⟩
  · intro hall
    simp [catFn, readAll_ok rt ps hall]

/-- Witness for C8: with only path `a` readable, `cat` on `[a, b]` fails
and `cat` on `[a]` returns paths and contents in order. -/
theorem cat_atomic_witness :
    (∃ q ∈ ["a".toList, "b".toList], readOnlyA q = none)
    ∧ (∃ e, catFn readOnlyA ["a".toList, "b".toList] = Except.error e)
    ∧ (∀ q ∈ ["a".toList], readOnlyA q ≠ none)
    ∧ catFn readOnlyA ["a".toList]
        = Except.ok { paths := ["a".toList], contents := ["x".toList] } := by
  refine ⟨⟨"b".toList, by decide, by decide⟩, ?_, ?_, ?_⟩
  · exact (cat_atomic readOnlyA _).1 ⟨"b".toList, by decide, by decide⟩
  · intro q hq
    simp only [List.mem_singleton] at hq
    subst hq
    decide
  · have h := (cat_atomic readOnlyA ["a".toList]).2 (by intro q hq; simp only [List.mem_singleton] at hq; subst hq; decide)
    simpa using h

/-- C9: concatenating three sources that each contain
`"This will be grepped.\n"` and grepping the result for `"will be"`
yields a result whose string value is the content repeated three times. -/
theorem cat_grep_roundtrip :
    (catFn readGrepped ["f1".toList, "f2".toList, "f3".toList]).map
      (fun cr => (grepApply ⟨"will be".toList, true⟩ (.cat cr)).str)
      = Except.ok (greppedLine ++ greppedLine ++ greppedLine) := by
  rfl

/-- C10: `dir()` on a `CatResult` raises `AttributeError`: the `__dir__`
implementation reads `self._input`, which neither the object nor its
string value defines. -/
theorem cat_dir_attribute_error (c : CatResult) :
    CatResult.dirOp c = Except.error "AttributeError"
    ∧ catAttrNames.contains "_input" = false
    ∧ strAttrNames.contains "_input" = false := by
  exact ⟨rfl, by decide, by decide⟩

/-- C3 (counterexample): stripping the color markers from the highlighted
form does not always reproduce the string value: it fails when the pattern
contains a newline (the wrapped match crosses the line boundary) and when
the input text itself contains marker sequences (text characters get
deleted with them). -/
theorem highlight_strip_counterexample :
    stripMarkers ((grepApply ⟨"a\nb".toList, true⟩ (.str "a\nb".toList)).colorized)
      ≠ (grepApply ⟨"a\nb".toList, true⟩ (.str "a\nb".toList)).str
    ∧ stripMarkers ((grepApply ⟨"x".toList, true⟩ (.str (ansiRed ++ "x".toList))).colorized)
      ≠ (grepApply ⟨"x".toList, true⟩ (.str (ansiRed ++ "x".toList))).str := by
  exact ⟨by decide, by decide⟩

theorem isPrefixOf_iff_take (p l : List Char) :
    p.isPrefixOf l = true ↔ l.take p.length = p := by
  induction p generalizing l with
  | nil => simp [List.isPrefixOf]
  | cons a p ih =>
    cases l with
    | nil => simp [List.isPrefixOf]
    | cons b l' =>
      simp only [List.isPrefixOf, Bool.and_eq_true, beq_iff_eq, List.length_cons,
        List.take_succ_cons, List.cons.injEq, ih]
      constructor
      · rintro ⟨h1, h2⟩
        exact ⟨h1.symm, h2⟩
      · rintro ⟨h1, h2⟩
        exact ⟨h1.symm, h2⟩

theorem isPrefixOf_length_le (p l : List Char) (h : p.isPrefixOf l = true) :
    p.length ≤ l.length := by
  have h2 := congrArg List.length ((isPrefixOf_iff_take p l).mp h)
  simp only [List.length_take] at h2
  omega

theorem findIterF_sound (p : List Char) (hp : p ≠ []) :
    ∀ (fuel : Nat) (t : List Char) (pos : Nat), t.length ≤ fuel →
      ∀ m ∈ findIterF p fuel t pos,
        pos ≤ m.1 ∧ m.2 = m.1 + p.length ∧ p.isPrefixOf (t.drop (m.1 - pos)) = true := by
  have hplen : 1 ≤ p.length := by
    cases p
    · exact absurd rfl hp
    · simp
  intro fuel
  induction fuel with
  | zero =>
    intro t pos ht m hm
    simp [findIterF] at hm
  | succ fuel ih =>
    intro t pos ht m hm
    cases t with
    | nil => simp [findIterF] at hm
    | cons c rest =>
      simp only [findIterF] at hm
      by_cases hpre : p.isPrefixOf (c :: rest) = true
      · rw [if_pos hpre] at hm
        rcases List.mem_cons.mp hm with h1 | h2
        · subst h1
          exact ⟨le_refl _, rfl, by simpa using hpre⟩
        · have hlen : (rest.drop (p.length - 1)).length ≤ fuel := by
            simp only [List.length_drop]
            simp only [List.length_cons] at ht
            omega
          obtain ⟨h3, h4, h5⟩ := ih (rest.drop (p.length - 1)) (pos + p.length) hlen m h2
          refine ⟨by omega, h4, ?_⟩
          have hdrop : (c :: rest).drop (m.1 - pos)
              = (rest.drop (p.length - 1)).drop (m.1 - (pos + p.length)) := by
            rw [List.drop_drop]
            have h6 : m.1 - pos = (m.1 - (pos + p.length) + (p.length - 1)) + 1 := by omega
            rw [h6, List.drop_succ_cons]
            congr 1
            omega
          rw [hdrop]
          exact h5
      · rw [if_neg hpre] at hm
        have hlen : rest.length ≤ fuel := by
          simp only [List.length_cons] at ht
          omega
        obtain ⟨h3, h4, h5⟩ := ih rest (pos + 1) hlen m hm
        refine ⟨by omega, h4, ?_⟩
        have hdrop : (c :: rest).drop (m.1 - pos) = rest.drop (m.1 - (pos + 1)) := by
          have h6 : m.1 - pos = (m.1 - (pos + 1)) + 1 := by omega
          rw [h6, List.drop_succ_cons]
        rw [hdrop]
        exact h5

theorem findIterF_pairwise (p : List Char) (hp : p ≠ []) :
    ∀ (fuel : Nat) (t : List Char) (pos : Nat), t.length ≤ fuel →
      List.Pairwise (fun a b => a.2 ≤ b.1) (findIterF p fuel t pos) := by
  intro fuel
  induction fuel with
  | zero =>
    intro t pos ht
    simp [findIterF]
  | succ fuel ih =>
    intro t pos ht
    cases t with
    | nil => simp [findIterF]
    | cons c rest =>
      simp only [findIterF]
      by_cases hpre : p.isPrefixOf (c :: rest) = true
      · rw [if_pos hpre]
        have hlen : (rest.drop (p.length - 1)).length ≤ fuel := by
          simp only [List.length_drop]
          simp only [List.length_cons] at ht
          omega
        refine List.pairwise_cons.mpr ⟨?_, ih _ _ hlen⟩
        intro b hb
        have := findIterF_sound p hp fuel _ _ hlen b hb
        simpa using this.1
      · rw [if_neg hpre]
        have hlen : rest.length ≤ fuel := by
          simp only [List.length_cons] at ht
          omega
        exact ih rest (pos + 1) hlen

theorem findIterF_complete (p : List Char) (hp : p ≠ []) :
    ∀ (fuel : Nat) (t : List Char) (pos i : Nat), t.length ≤ fuel →
      p.isPrefixOf (t.drop i) = true →
      ∃ m ∈ findIterF p fuel t pos, m.1 ≤ pos + i ∧ pos + i < m.2 := by
  have hplen : 1 ≤ p.length := by
    cases p
    · exact absurd rfl hp
    · simp
  intro fuel
  induction fuel with
  | zero =>
    intro t pos i ht hocc
    have h0 : t = [] := List.eq_nil_of_length_eq_zero (by omega)
    subst h0
    have hle := isPrefixOf_length_le p _ hocc
    simp only [List.drop_nil, List.length_nil] at hle
    omega
  | succ fuel ih =>
    intro t pos i ht hocc
    cases t with
    | nil =>
      have hle := isPrefixOf_length_le p _ hocc
      simp only [List.drop_nil, List.length_nil] at hle
      omega
    | cons c rest =>
      simp only [findIterF]
      by_cases hpre : p.isPrefixOf (c :: rest) = true
      · rw [if_pos hpre]
        by_cases hi : i < p.length
        · exact ⟨(pos, pos + p.length), List.mem_cons_self _ _, by simp, by simp; omega⟩
        · have hlen : (rest.drop (p.length - 1)).length ≤ fuel := by
            simp only [List.length_drop]
            simp only [List.length_cons] at ht
            omega
          have hdrop : (c :: rest).drop i
              = (rest.drop (p.length - 1)).drop (i - p.length) := by
            rw [List.drop_drop]
            have h6 : i = (i - p.length + (p.length - 1)) + 1 := by omega
            rw [h6, List.drop_succ_cons]
            congr 1
            omega
          rw [hdrop] at hocc
          obtain ⟨m, hm, h1, h2⟩ := ih _ (pos + p.length) (i - p.length) hlen hocc
          exact ⟨m, List.mem_cons_of_mem _ hm, by omega, by omega⟩
      · rw [if_neg hpre]
        have hi : i ≠ 0 := by
          rintro rfl
          rw [List.drop_zero] at hocc
          exact hpre hocc
        have hlen : rest.length ≤ fuel := by
          simp only [List.length_cons] at ht
          omega
        have hdrop : (c :: rest).drop i = rest.drop (i - 1) := by
          have h6 : i = (i - 1) + 1 := by omega
          rw [h6, List.drop_succ_cons]
          congr 1
        rw [hdrop] at hocc
        obtain ⟨m, hm, h1, h2⟩ := ih rest (pos + 1) (i - 1) hlen hocc
        exact ⟨m, hm, by omega, by omega⟩

/-- C1: for every non-empty pattern and every text, the matcher's spans
are in ascending start order and pairwise non-overlapping, the substring
at each span equals the pattern, and every occurrence of the pattern
falls inside some reported span (the leftmost non-overlapping occurrences:
none skipped, none double-reported). -/
theorem grep_match_spans (p t : List Char) (hl : Bool) (hp : p ≠ []) :
    List.Pairwise (fun a b => a.1 < b.1 ∧ a.2 ≤ b.1)
      ((grepApply ⟨p, hl⟩ (.str t)).«matches»)
    ∧ (∀ m ∈ (grepApply ⟨p, hl⟩ (.str t)).«matches»,
        m.2 = m.1 + p.length ∧ sliceL t m.1 m.2 = p)
    ∧ (∀ q, p.isPrefixOf (t.drop q) = true →
        ∃ m ∈ (grepApply ⟨p, hl⟩ (.str t)).«matches», m.1 ≤ q ∧ q < m.2) := by
  have hplen : 1 ≤ p.length := by
    cases p
    · exact absurd rfl hp
    · simp
  have hmm : (grepApply ⟨p, hl⟩ (.str t)).«matches» = findIterF p t.length t 0 := rfl
  rw [hmm]
  refine ⟨?_, ?_, ?_⟩
  · have hpw := findIterF_pairwise p hp t.length t 0 (le_refl _)
    refine hpw.imp_of_mem ?_
    intro a b ha hb hr
    have hsa := findIterF_sound p hp t.length t 0 (le_refl _) a ha
    exact ⟨by omega, hr⟩
  · intro m hm
    have hs := findIterF_sound p hp t.length t 0 (le_refl _) m hm
    refine ⟨hs.2.1, ?_⟩
    have hpre : p.isPrefixOf (t.drop m.1) = true := by
      have := hs.2.2
      simpa using this
    have htake := (isPrefixOf_iff_take p _).mp hpre
    unfold sliceL
    rw [hs.2.1]
    have h7 : m.1 + p.length - m.1 = p.length := by omega
    rw [h7]
    exact htake
  · intro q hq
    have := findIterF_complete p hp t.length t 0 q (le_refl _) hq
    simpa using this

/-- Witness for C1 at pattern `"ab"` on text `"xabab"`. -/
theorem grep_match_spans_witness :
    "ab".toList ≠ []
    ∧ (List.Pairwise (fun a b => a.1 < b.1 ∧ a.2 ≤ b.1)
        ((grepApply ⟨"ab".toList, true⟩ (.str "xabab".toList)).«matches»)
      ∧ (∀ m ∈ (grepApply ⟨"ab".toList, true⟩ (.str "xabab".toList)).«matches»,
          m.2 = m.1 + "ab".toList.length ∧ sliceL "xabab".toList m.1 m.2 = "ab".toList)
      ∧ (∀ q, "ab".toList.isPrefixOf ("xabab".toList.drop q) = true →
          ∃ m ∈ (grepApply ⟨"ab".toList, true⟩ (.str "xabab".toList)).«matches»,
            m.1 ≤ q ∧ q < m.2)) :=
  ⟨by decide, grep_match_spans "ab".toList "xabab".toList true (by decide)⟩

theorem getD_map_of_lt {α β : Type} (f : α → β) (l : List α) (d1 : α) (d2 : β) :
    ∀ i, i < l.length → (l.map f).getD i d2 = f (l.getD i d1) := by
  induction l with
  | nil => intro i hi; simp at hi
  | cons a l ih =>
    intro i hi
    cases i with
    | zero => rfl
    | succ j =>
      simp only [List.map_cons, List.getD_cons_succ]
      exact ih j (by simpa using hi)

theorem getD_zip_of_lt (l1 l2 : List Nat) :
    ∀ i, i < l1.length → i < l2.length →
      (l1.zip l2).getD i (0, 0) = (l1.getD i 0, l2.getD i 0) := by
  induction l1 generalizing l2 with
  | nil => intro i hi; simp at hi
  | cons a l1 ih =>
    intro i hi1 hi2
    cases l2 with
    | nil => simp at hi2
    | cons b l2 =>
      cases i with
      | zero => rfl
      | succ j =>
        simp only [List.zip_cons_cons, List.getD_cons_succ]
        exact ih l2 j (by simpa using hi1) (by simpa using hi2)

theorem getD_append_left_nat (l1 l2 : List Nat) :
    ∀ i, i < l1.length → (l1 ++ l2).getD i 0 = l1.getD i 0 := by
  induction l1 with
  | nil => intro i hi; simp at hi
  | cons a l1 ih =>
    intro i hi
    cases i with
    | zero => rfl
    | succ j =>
      simp only [List.cons_append, List.getD_cons_succ]
      exact ih j (by simpa using hi)

theorem getD_append_len_nat (l1 : List Nat) (x : Nat) :
    (l1 ++ [x]).getD l1.length 0 = x := by
  induction l1 with
  | nil => rfl
  | cons a l1 ih => simp [ih]

theorem getD_mem_of_lt (l : List Nat) : ∀ i, i < l.length → l.getD i 0 ∈ l := by
  induction l with
  | nil => intro i hi; simp at hi
  | cons a l ih =>
    intro i hi
    cases i with
    | zero => exact List.mem_cons_self _ _
    | succ j =>
      simp only [List.getD_cons_succ]
      exact List.mem_cons_of_mem _ (ih j (by simpa using hi))

theorem pairwise_getD_lt (l : List Nat) (hs : List.Pairwise (· < ·) l) :
    ∀ i j, i < j → j < l.length → l.getD i 0 < l.getD j 0 := by
  intro i j hij hj
  have hi : i < l.length := by omega
  have h := List.pairwise_iff_getElem.mp hs i j hi hj hij
  rw [List.getD_eq_getElem l 0 hi, List.getD_eq_getElem l 0 hj]
  exact h

theorem pairwise_getD_le (l : List Nat) (hs : List.Pairwise (· < ·) l) :
    ∀ i j, i ≤ j → j < l.length → l.getD i 0 ≤ l.getD j 0 := by
  intro i j hij hj
  rcases Nat.eq_or_lt_of_le hij with h | h
  · subst h; exact le_refl _
  · exact le_of_lt (pairwise_getD_lt l hs i j h hj)

theorem countP_lt_eq (q : Nat) :
    ∀ (l : List Nat), List.Pairwise (· < ·) l → ∀ k, k ≤ l.length →
      (∀ i, i < k → l.getD i 0 < q) →
      (k < l.length → ¬(l.getD k 0 < q)) →
      l.countP (fun j => decide (j < q)) = k := by
  intro l
  induction l with
  | nil =>
    intro _ k hk _ _
    simp at hk
    simp [hk]
  | cons a l ih =>
    intro hs k hk hlow hhigh
    have ha : ∀ x ∈ l, a < x := fun x hx => (List.pairwise_cons.mp hs).1 x hx
    have hs' : List.Pairwise (· < ·) l := (List.pairwise_cons.mp hs).2
    cases k with
    | zero =>
      have hna : ¬(a < q) := by
        have := hhigh (by simp)
        simpa using this
      have hzero : l.countP (fun j => decide (j < q)) = 0 := by
        rw [List.countP_eq_zero]
        intro x hx
        simp only [decide_eq_true_eq]
        have := ha x hx
        omega
      simp only [List.countP_cons, hzero]
      simp [hna]
    | succ k' =>
      have haq : a < q := by
        have := hlow 0 (by omega)
        simpa using this
      have hrec : l.countP (fun j => decide (j < q)) = k' := by
        refine ih hs' k' (by simpa using hk) ?_ ?_
        · intro i hi
          have := hlow (i + 1) (by omega)
          simpa using this
        · intro hlt
          have := hhigh (by simpa using hlt)
          simpa using this
      simp only [List.countP_cons, hrec]
      simp [haq]

theorem countP_pred (q : Nat) :
    ∀ (l : List Nat), List.Pairwise (· < ·) l →
      (0 < l.countP (fun j => decide (j < q)) →
        l.getD (l.countP (fun j => decide (j < q)) - 1) 0 < q)
      ∧ (l.countP (fun j => decide (j < q)) < l.length →
        q ≤ l.getD (l.countP (fun j => decide (j < q))) 0) := by
  intro l
  induction l with
  | nil => intro _; simp
  | cons a l ih =>
    intro hs
    have ha : ∀ x ∈ l, a < x := fun x hx => (List.pairwise_cons.mp hs).1 x hx
    have hs' : List.Pairwise (· < ·) l := (List.pairwise_cons.mp hs).2
    obtain ⟨ih1, ih2⟩ := ih hs'
    by_cases haq : a < q
    · have hcnt : (a :: l).countP (fun j => decide (j < q))
          = l.countP (fun j => decide (j < q)) + 1 := by
        simp [List.countP_cons, haq]
      constructor
      · intro _
        rw [hcnt]
        simp only [Nat.add_sub_cancel]
        by_cases hc : 0 < l.countP (fun j => decide (j < q))
        · have := ih1 hc
          have he : l.countP (fun j => decide (j < q))
              = (l.countP (fun j => decide (j < q)) - 1) + 1 := by omega
          rw [he, List.getD_cons_succ]
          exact this
        · have hc0 : l.countP (fun j => decide (j < q)) = 0 := by omega
          rw [hc0]
          simpa using haq
      · intro hlt
        rw [hcnt] at hlt ⊢
        rw [List.getD_cons_succ]
        exact ih2 (by simpa using hlt)
    · have hzero : l.countP (fun j => decide (j < q)) = 0 := by
        rw [List.countP_eq_zero]
        intro x hx
        simp only [decide_eq_true_eq]
        have := ha x hx
        omega
      have hcnt : (a :: l).countP (fun j => decide (j < q)) = 0 := by
        simp [List.countP_cons, hzero, haq]
      rw [hcnt]
      constructor
      · intro h0; omega
      · intro _
        simpa using Nat.le_of_not_lt haq

theorem nlPos_bounds : ∀ (t : List Char) (i : Nat), ∀ j ∈ nlPos t i, i ≤ j ∧ j < i + t.length := by
  intro t
  induction t with
  | nil => intro i j hj; simp [nlPos] at hj
  | cons c rest ih =>
    intro i j hj
    simp only [nlPos] at hj
    by_cases hc : c = '\n'
    · rw [if_pos hc] at hj
      rcases List.mem_cons.mp hj with h1 | h2
      · subst h1; simp
      · have := ih (i + 1) j h2
        simp only [List.length_cons]
        omega
    · rw [if_neg hc] at hj
      have := ih (i + 1) j hj
      simp only [List.length_cons]
      omega

theorem nlPos_pairwise : ∀ (t : List Char) (i : Nat), List.Pairwise (· < ·) (nlPos t i) := by
  intro t
  induction t with
  | nil => intro i; simp [nlPos]
  | cons c rest ih =>
    intro i
    simp only [nlPos]
    by_cases hc : c = '\n'
    · rw [if_pos hc]
      refine List.pairwise_cons.mpr ⟨?_, ih (i + 1)⟩
      intro j hj
      have := nlPos_bounds rest (i + 1) j hj
      omega
    · rw [if_neg hc]
      exact ih (i + 1)

theorem nlPos_mem_iff : ∀ (t : List Char) (i k : Nat),
    (i + k) ∈ nlPos t i ↔ t[k]? = some '\n' := by
  intro t
  induction t with
  | nil => intro i k; simp [nlPos]
  | cons c rest ih =>
    intro i k
    simp only [nlPos]
    by_cases hc : c = '\n'
    · rw [if_pos hc]
      cases k with
      | zero =>
        simp only [Nat.add_zero, List.getElem?_cons_zero, hc]
        simp [List.mem_cons]
      | succ k' =>
        simp only [List.getElem?_cons_succ]
        rw [List.mem_cons]
        constructor
        · rintro (h1 | h2)
          · omega
          · have he : i + (k' + 1) = (i + 1) + k' := by omega
            rw [he] at h2
            exact (ih (i + 1) k').mp h2
        · intro h
          right
          have he : i + (k' + 1) = (i + 1) + k' := by omega
          rw [he]
          exact (ih (i + 1) k').mpr h
    · rw [if_neg hc]
      cases k with
      | zero =>
        simp only [Nat.add_zero, List.getElem?_cons_zero]
        constructor
        · intro h
          have := (nlPos_bounds rest (i + 1) i h).1
          omega
        · intro h
          exact absurd (Option.some_inj.mp h) hc
      | succ k' =>
        simp only [List.getElem?_cons_succ]
        have he : i + (k' + 1) = (i + 1) + k' := by omega
        rw [he]
        exact ih (i + 1) k'

theorem nl_mem_iff (t : List Char) (j : Nat) :
    j ∈ nlPos t 0 ↔ t[j]? = some '\n' := by
  have := nlPos_mem_iff t 0 j
  simpa using this

theorem nl_lt_length (t : List Char) (j : Nat) (hj : j ∈ nlPos t 0) : j < t.length := by
  have := nlPos_bounds t 0 j hj
  omega

theorem dollars_pairwise (t : List Char) : List.Pairwise (· < ·) (dollars t) := by
  unfold dollars
  rw [List.pairwise_append]
  refine ⟨nlPos_pairwise t 0, by simp, ?_⟩
  intro a ha b hb
  simp only [List.mem_singleton] at hb
  subst hb
  exact nl_lt_length t a ha

theorem dollars_length (t : List Char) : (dollars t).length = (nlPos t 0).length + 1 := by
  simp [dollars]

theorem lineStarts_length (t : List Char) : (lineStarts t).length = (nlPos t 0).length + 1 := by
  simp [lineStarts]

theorem startAt_zero (t : List Char) : startAt t 0 = 0 := rfl

theorem startAt_eq (t : List Char) (k : Nat) (h1 : 1 ≤ k) (h2 : k ≤ (nlPos t 0).length) :
    startAt t k = (nlPos t 0).getD (k - 1) 0 + 1 := by
  unfold startAt lineStarts
  have he : k = (k - 1) + 1 := by omega
  rw [he, List.getD_cons_succ]
  exact getD_map_of_lt (· + 1) (nlPos t 0) 0 0 (k - 1) (by omega)

theorem dollarAt_eq_nl (t : List Char) (k : Nat) (hk : k < (nlPos t 0).length) :
    dollarAt t k = (nlPos t 0).getD k 0 := by
  unfold dollarAt dollars
  exact getD_append_left_nat (nlPos t 0) [t.length] k hk

theorem dollarAt_last (t : List Char) : dollarAt t (nlPos t 0).length = t.length := by
  unfold dollarAt dollars
  exact getD_append_len_nat (nlPos t 0) t.length

theorem dollarAt_le (t : List Char) (k : Nat) (hk : k ≤ (nlPos t 0).length) :
    dollarAt t k ≤ t.length := by
  rcases Nat.lt_or_ge k (nlPos t 0).length with h | h
  · rw [dollarAt_eq_nl t k h]
    have hmem := getD_mem_of_lt (nlPos t 0) k h
    exact le_of_lt (nl_lt_length t _ hmem)
  · have hke : k = (nlPos t 0).length := by omega
    rw [hke, dollarAt_last]

theorem startAt_succ_eq (t : List Char) (k : Nat) (hk : k < (nlPos t 0).length) :
    startAt t (k + 1) = dollarAt t k + 1 := by
  rw [startAt_eq t (k + 1) (by omega) (by omega), dollarAt_eq_nl t k hk]
  simp

theorem startAt_le_dollarAt (t : List Char) (k : Nat) (hk : k ≤ (nlPos t 0).length) :
    startAt t k ≤ dollarAt t k := by
  cases k with
  | zero => simp [startAt_zero]
  | succ k' =>
    rw [startAt_eq t (k' + 1) (by omega) hk]
    rcases Nat.lt_or_ge (k' + 1) (nlPos t 0).length with h | h
    · rw [dollarAt_eq_nl t (k' + 1) h]
      have := pairwise_getD_lt (nlPos t 0) (nlPos_pairwise t 0) k' (k' + 1) (by omega) h
      simpa using this
    · have hke : k' + 1 = (nlPos t 0).length := by omega
      rw [hke, dollarAt_last]
      have hmem := getD_mem_of_lt (nlPos t 0) ((nlPos t 0).length - 1) (by omega)
      have := nl_lt_length t _ hmem
      omega

theorem lineIdx_le_nl (t : List Char) (q : Nat) : lineIdx t q ≤ (nlPos t 0).length :=
  List.countP_le_length _

theorem lineIdx_lt_dollars (t : List Char) (q : Nat) : lineIdx t q < (dollars t).length := by
  rw [dollars_length]
  have := lineIdx_le_nl t q
  omega

theorem startAt_lineIdx_le (t : List Char) (q : Nat) : startAt t (lineIdx t q) ≤ q := by
  cases hk : lineIdx t q with
  | zero => simp [startAt_zero]
  | succ k' =>
    have hle := lineIdx_le_nl t q
    rw [hk] at hle
    rw [startAt_eq t (k' + 1) (by omega) hle]
    have hp := (countP_pred q (nlPos t 0) (nlPos_pairwise t 0)).1
    unfold lineIdx at hk
    rw [hk] at hp
    have := hp (by omega)
    simpa using this

theorem le_dollarAt_lineIdx (t : List Char) (q : Nat) (hq : q ≤ t.length) :
    q ≤ dollarAt t (lineIdx t q) := by
  have hle := lineIdx_le_nl t q
  rcases Nat.lt_or_ge (lineIdx t q) (nlPos t 0).length with h | h
  · rw [dollarAt_eq_nl t _ h]
    have hp := (countP_pred q (nlPos t 0) (nlPos_pairwise t 0)).2
    unfold lineIdx at h ⊢
    exact hp h
  · have hke : lineIdx t q = (nlPos t 0).length := by omega
    rw [hke, dollarAt_last]
    exact hq

theorem no_nl_between (t : List Char) (k : Nat) (hk : k ≤ (nlPos t 0).length) :
    ∀ j ∈ nlPos t 0, ¬(startAt t k ≤ j ∧ j < dollarAt t k) := by
  intro j hj ⟨hj1, hj2⟩
  obtain ⟨i, hi, hig⟩ := List.mem_iff_getElem.mp hj
  have hjg : (nlPos t 0).getD i 0 = j := by
    rw [List.getD_eq_getElem _ 0 hi]
    exact hig
  rcases Nat.lt_or_ge i k with h | h
  · have hk1 : 1 ≤ k := by omega
    have hle := pairwise_getD_le (nlPos t 0) (nlPos_pairwise t 0) i (k - 1) (by omega) (by omega)
    rw [startAt_eq t k hk1 hk] at hj1
    omega
  · rcases Nat.lt_or_ge k (nlPos t 0).length with h2 | h2
    · have hle := pairwise_getD_le (nlPos t 0) (nlPos_pairwise t 0) k i h hi
      rw [dollarAt_eq_nl t k h2] at hj2
      omega
    · omega

theorem getD_append_cons_nat (l1 : List Nat) (x : Nat) (l2 : List Nat) :
    (l1 ++ x :: l2).getD l1.length 0 = x := by
  induction l1 with
  | nil => rfl
  | cons a l1 ih => simpa using ih

theorem match_char (p t : List Char) (a : Nat) (hpre : p.isPrefixOf (t.drop a) = true)
    (pos : Nat) (h1 : a ≤ pos) (h2 : pos < a + p.length) :
    t[pos]? = p[pos - a]? := by
  have htake := (isPrefixOf_iff_take p _).mp hpre
  have hstep : p[pos - a]? = ((t.drop a).take p.length)[pos - a]? := by rw [htake]
  rw [hstep]
  rw [List.getElem?_take]
  rw [if_pos (by omega)]
  rw [List.getElem?_drop]
  congr 1
  omega

theorem nl_mem_of_pos (p t : List Char) (a : Nat) (hpre : p.isPrefixOf (t.drop a) = true)
    (pos : Nat) (h1 : a ≤ pos) (h2 : pos < a + p.length)
    (hnl : t[pos]? = some '\n') : '\n' ∈ p := by
  have hc := match_char p t a hpre pos h1 h2
  rw [hnl] at hc
  obtain ⟨hlt, hg⟩ := List.getElem?_eq_some.mp hc.symm
  rw [← hg]
  exact List.getElem_mem hlt

theorem span_in_line (p t : List Char) (hp : p ≠ []) (hnl : '\n' ∉ p)
    (m : Nat × Nat) (hm : m ∈ grepMatch p t) :
    startAt t (lineIdx t m.1) ≤ m.1 ∧ m.1 < m.2
    ∧ m.2 ≤ dollarAt t (lineIdx t m.1) + 1 ∧ m.2 ≤ t.length := by
  have hplen : 1 ≤ p.length := by
    cases p
    · exact absurd rfl hp
    · simp
  have hs := findIterF_sound p hp t.length t 0 (le_refl _) m hm
  have hpre : p.isPrefixOf (t.drop m.1) = true := by simpa using hs.2.2
  have hm2 : m.2 = m.1 + p.length := hs.2.1
  have hm2le : m.2 ≤ t.length := by
    have := isPrefixOf_length_le p _ hpre
    rw [List.length_drop] at this
    omega
  have hm1le : m.1 ≤ t.length := by omega
  refine ⟨startAt_lineIdx_le t m.1, by omega, ?_, hm2le⟩
  rcases Nat.lt_or_ge (lineIdx t m.1) (nlPos t 0).length with hcase | hcase
  · by_contra hcon
    push_neg at hcon
    have hd := dollarAt_eq_nl t _ hcase
    have hdmem : (nlPos t 0).getD (lineIdx t m.1) 0 ∈ nlPos t 0 := getD_mem_of_lt _ _ hcase
    have hdnl : t[(nlPos t 0).getD (lineIdx t m.1) 0]? = some '\n' := (nl_mem_iff t _).mp hdmem
    have hb1 : m.1 ≤ dollarAt t (lineIdx t m.1) := le_dollarAt_lineIdx t m.1 hm1le
    have hmem : '\n' ∈ p := by
      refine nl_mem_of_pos p t m.1 hpre ((nlPos t 0).getD (lineIdx t m.1) 0) ?_ ?_ hdnl
      · rw [← hd]; exact hb1
      · rw [← hd]
        omega
    exact hnl hmem
  · have hke : lineIdx t m.1 = (nlPos t 0).length := by
      have := lineIdx_le_nl t m.1
      omega
    rw [hke, dollarAt_last]
    omega

theorem spans_sorted_starts (p t : List Char) (hp : p ≠ []) :
    List.Pairwise (fun a b => a.1 ≤ b.1) (grepMatch p t) := by
  have hpw := findIterF_pairwise p hp t.length t 0 (le_refl _)
  refine hpw.imp_of_mem ?_
  intro a b ha hb hr
  have hsa := findIterF_sound p hp t.length t 0 (le_refl _) a ha
  have := hsa.2.1
  omega

theorem spans_start_le (p t : List Char) (hp : p ≠ []) :
    ∀ m ∈ grepMatch p t, m.1 ≤ t.length := by
  intro m hm
  have hplen : 1 ≤ p.length := by
    cases p
    · exact absurd rfl hp
    · simp
  have hs := findIterF_sound p hp t.length t 0 (le_refl _) m hm
  have hpre : p.isPrefixOf (t.drop m.1) = true := by simpa using hs.2.2
  have := isPrefixOf_length_le p _ hpre
  rw [List.length_drop] at this
  omega

theorem lineScanF_eq_map (t : List Char) :
    ∀ (fuel : Nat) (ms : List (Nat × Nat)) (pre post : List Nat) (d s : Nat),
      dollars t = pre ++ d :: post →
      post.length + ms.length ≤ fuel →
      (∀ m ∈ ms, s ≤ m.1) →
      (∀ j ∈ pre, ∀ m ∈ ms, j < m.1) →
      List.Pairwise (fun a b => a.1 ≤ b.1) ms →
      (∀ m ∈ ms, m.1 ≤ t.length) →
      lineScanF fuel post pre.length s (d + 1) ms
        = ms.map (fun m => (lineIdx t m.1, m)) := by
  intro fuel
  induction fuel with
  | zero =>
    intro ms pre post d s hEq hFuel hS hPre hSort hB
    cases ms with
    | nil => simp [lineScanF_nil]
    | cons m ms' => simp at hFuel
  | succ fuel ih =>
    intro ms pre post d s hEq hFuel hS hPre hSort hB
    cases ms with
    | nil => simp [lineScanF_nil]
    | cons m ms' =>
      have hnl_len : pre.length + post.length = (nlPos t 0).length := by
        have := congrArg List.length hEq
        rw [dollars_length] at this
        simp at this
        omega
      by_cases hcond : s ≤ m.1 ∧ m.1 < d + 1
      · have hstep : lineScanF (fuel + 1) post pre.length s (d + 1) (m :: ms')
            = (pre.length, m) :: lineScanF fuel post pre.length s (d + 1) ms' := by
          simp [lineScanF, hcond]
        rw [hstep]
        have hkey : lineIdx t m.1 = pre.length := by
          unfold lineIdx
          refine countP_lt_eq m.1 (nlPos t 0) (nlPos_pairwise t 0) pre.length (by omega) ?_ ?_
          · intro i hi
            have h1 : (nlPos t 0).getD i 0 = (dollars t).getD i 0 := by
              unfold dollars
              rw [getD_append_left_nat _ _ i (by omega)]
            have h2 : (dollars t).getD i 0 = pre.getD i 0 := by
              rw [hEq, getD_append_left_nat _ _ i hi]
            have hmem : pre.getD i 0 ∈ pre := getD_mem_of_lt pre i hi
            have := hPre _ hmem m (List.mem_cons_self _ _)
            omega
          · intro hlt
            have h1 : (nlPos t 0).getD pre.length 0 = (dollars t).getD pre.length 0 := by
              unfold dollars
              rw [getD_append_left_nat _ _ pre.length hlt]
            have h2 : (dollars t).getD pre.length 0 = d := by
              rw [hEq, getD_append_cons_nat]
            rw [h1, h2]
            omega
        simp only [List.map_cons]
        rw [hkey]
        rw [ih ms' pre post d s hEq (by simp at hFuel ⊢; omega)
          (fun m' hm' => hS m' (List.mem_cons_of_mem _ hm'))
          (fun j hj m' hm' => hPre j hj m' (List.mem_cons_of_mem _ hm'))
          (List.pairwise_cons.mp hSort).2
          (fun m' hm' => hB m' (List.mem_cons_of_mem _ hm'))]
      · have hsm : s ≤ m.1 := hS m (List.mem_cons_self _ _)
        have hd : d < m.1 := by
          by_contra hno
          exact hcond ⟨hsm, by omega⟩
        cases post with
        | nil =>
          exfalso
          have h1 : (dollars t).getLast? = some t.length := by
            unfold dollars
            exact List.getLast?_concat _
          rw [hEq] at h1
          have h2 : (pre ++ [d]).getLast? = some d := List.getLast?_concat _
          rw [h2] at h1
          have h3 : d = t.length := by
            exact Option.some_inj.mp h1
          have := hB m (List.mem_cons_self _ _)
          omega
        | cons d2 post2 =>
          have hstep : lineScanF (fuel + 1) (d2 :: post2) pre.length s (d + 1) (m :: ms')
              = lineScanF fuel post2 (pre.length + 1) (d + 1) (d2 + 1) (m :: ms') := by
            simp [lineScanF, hcond]
          rw [hstep]
          rw [show pre.length + 1 = (pre ++ [d]).length from by simp]
          refine ih (m :: ms') (pre ++ [d]) post2 d2 (d + 1) ?_ ?_ ?_ ?_ hSort hB
          · rw [hEq]
            simp
          · simp at hFuel ⊢
            omega
          · intro m' hm'
            rcases List.mem_cons.mp hm' with h1 | h2
            · subst h1; omega
            · have := (List.pairwise_cons.mp hSort).1 m' h2
              omega
          · intro j hj m' hm'
            rcases List.mem_append.mp hj with h1 | h2
            · exact hPre j h1 m' hm'
            · simp only [List.mem_singleton] at h2
              subst h2
              rcases List.mem_cons.mp hm' with h1 | h2
              · subst h1; omega
              · have := (List.pairwise_cons.mp hSort).1 m' h2
                omega

theorem lineScanInit_eq_map (p t : List Char) (hp : p ≠ []) :
    lineScanInit t (grepMatch p t) = (grepMatch p t).map (fun m => (lineIdx t m.1, m)) := by
  rcases hEq : dollars t with _ | ⟨d, ds⟩
  · exfalso
    unfold dollars at hEq
    simp at hEq
  · unfold lineScanInit
    rw [hEq]
    have := lineScanF_eq_map t (ds.length + (grepMatch p t).length) (grepMatch p t) [] ds d 0
      (by simpa using hEq) (le_refl _) (fun m _ => Nat.zero_le _)
      (by intro j hj; simp at hj) (spans_sorted_starts p t hp) (spans_start_le p t hp)
    simpa using this

theorem lineMatches_spec (p t : List Char) (hp : p ≠ []) :
    lineMatchesOf t (grepMatch p t)
      = groupPairs ((grepMatch p t).map (fun m => (lineIdx t m.1, m))) := by
  unfold lineMatchesOf
  rw [lineScanInit_eq_map p t hp]

theorem groupPairs_mem {α : Type} :
    ∀ (l : List (Nat × α)), ∀ g ∈ groupPairs l, g.2 ≠ [] ∧ ∀ v ∈ g.2, (g.1, v) ∈ l := by
  intro l
  induction l with
  | nil => intro g hg; simp [groupPairs] at hg
  | cons kv rest ih =>
    intro g hg
    obtain ⟨k, v⟩ := kv
    rcases hrec : groupPairs rest with _ | ⟨⟨k2, vs⟩, gs⟩
    · simp only [groupPairs, hrec, List.mem_singleton] at hg
      subst hg
      refine ⟨by simp, ?_⟩
      intro w hw
      simp only [List.mem_singleton] at hw
      subst hw
      exact List.mem_cons_self _ _
    · by_cases hk : k = k2
      · simp only [groupPairs, hrec, if_pos hk] at hg
        rcases List.mem_cons.mp hg with h1 | h2
        · subst h1
          refine ⟨by simp, ?_⟩
          intro w hw
          rcases List.mem_cons.mp hw with hw1 | hw2
          · subst hw1
            exact List.mem_cons_self _ _
          · have hg2 := ih (k2, vs) (by rw [hrec]; exact List.mem_cons_self _ _)
            have hmem := hg2.2 w hw2
            rw [← hk] at hmem
            exact List.mem_cons_of_mem _ hmem
        · have hg2 := ih g (by rw [hrec]; exact List.mem_cons_of_mem _ h2)
          exact ⟨hg2.1, fun w hw => List.mem_cons_of_mem _ (hg2.2 w hw)⟩
      · simp only [groupPairs, hrec, if_neg hk] at hg
        rcases List.mem_cons.mp hg with h1 | h2
        · subst h1
          refine ⟨by simp, ?_⟩
          intro w hw
          simp only [List.mem_singleton] at hw
          subst hw
          exact List.mem_cons_self _ _
        · have hg2 := ih g (by rw [hrec]; exact h2)
          exact ⟨hg2.1, fun w hw => List.mem_cons_of_mem _ (hg2.2 w hw)⟩

theorem groupPairs_sublist {α : Type} :
    ∀ (l : List (Nat × α)), ∀ g ∈ groupPairs l, g.2.Sublist (l.map Prod.snd) := by
  intro l
  induction l with
  | nil => intro g hg; simp [groupPairs] at hg
  | cons kv rest ih =>
    intro g hg
    obtain ⟨k, v⟩ := kv
    simp only [List.map_cons]
    rcases hrec : groupPairs rest with _ | ⟨⟨k2, vs⟩, gs⟩
    · simp only [groupPairs, hrec, List.mem_singleton] at hg
      subst hg
      simp
    · by_cases hk : k = k2
      · simp only [groupPairs, hrec, if_pos hk] at hg
        rcases List.mem_cons.mp hg with h1 | h2
        · subst h1
          have hsub := ih (k2, vs) (by rw [hrec]; exact List.mem_cons_self _ _)
          exact List.Sublist.cons₂ _ hsub
        · have hsub := ih g (by rw [hrec]; exact List.mem_cons_of_mem _ h2)
          exact List.Sublist.cons _ hsub
      · simp only [groupPairs, hrec, if_neg hk] at hg
        rcases List.mem_cons.mp hg with h1 | h2
        · subst h1
          simp
        · have hsub := ih g (by rw [hrec]; exact h2)
          exact List.Sublist.cons _ hsub

theorem groupPairs_keys_mem {α : Type} :
    ∀ (l : List (Nat × α)) (x : Nat),
      x ∈ (groupPairs l).map Prod.fst ↔ x ∈ l.map Prod.fst := by
  intro l
  induction l with
  | nil => intro x; simp [groupPairs]
  | cons kv rest ih =>
    intro x
    obtain ⟨k, v⟩ := kv
    rcases hrec : groupPairs rest with _ | ⟨⟨k2, vs⟩, gs⟩
    · have hempty : rest.map Prod.fst = [] := by
        by_contra hne
        have : ∃ y, y ∈ rest.map Prod.fst := by
          cases hl : rest.map Prod.fst with
          | nil => exact absurd hl hne
          | cons a as => exact ⟨a, List.mem_cons_self _ _⟩
        obtain ⟨y, hy⟩ := this
        have := (ih y).mpr hy
        rw [hrec] at this
        simp at this
      simp [groupPairs, hrec, hempty]
    · by_cases hk : k = k2
      · simp only [groupPairs, hrec, if_pos hk, List.map_cons, List.mem_cons]
        have ihx := ih x
        rw [hrec] at ihx
        simp only [List.map_cons, List.mem_cons] at ihx
        constructor
        · intro h
          rcases h with h1 | h2
          · exact Or.inl h1
          · exact Or.inr (ihx.mp (Or.inr h2))
        · intro h
          rcases h with h1 | h2
          · exact Or.inl h1
          · rcases ihx.mpr h2 with ha | hb
            · left; rw [hk]; exact ha
            · exact Or.inr hb
      · simp only [groupPairs, hrec, if_neg hk, List.map_cons, List.mem_cons]
        have ihx := ih x
        rw [hrec] at ihx
        simp only [List.map_cons, List.mem_cons] at ihx
        constructor
        · intro h
          rcases h with h1 | h2
          · exact Or.inl h1
          · exact Or.inr (ihx.mp h2)
        · intro h
          rcases h with h1 | h2
          · exact Or.inl h1
          · exact Or.inr (ihx.mpr h2)

theorem groupPairs_keys_pairwise {α : Type} :
    ∀ (l : List (Nat × α)), List.Pairwise (· ≤ ·) (l.map Prod.fst) →
      List.Pairwise (· < ·) ((groupPairs l).map Prod.fst) := by
  intro l
  induction l with
  | nil => intro _; simp [groupPairs]
  | cons kv rest ih =>
    intro hpw
    obtain ⟨k, v⟩ := kv
    simp only [List.map_cons] at hpw
    have hk_le : ∀ x ∈ rest.map Prod.fst, k ≤ x := (List.pairwise_cons.mp hpw).1
    have hpw' : List.Pairwise (· ≤ ·) (rest.map Prod.fst) := (List.pairwise_cons.mp hpw).2
    have ihr := ih hpw'
    rcases hrec : groupPairs rest with _ | ⟨⟨k2, vs⟩, gs⟩
    · simp [groupPairs, hrec]
    · rw [hrec] at ihr
      have hk2mem : k2 ∈ rest.map Prod.fst := by
        have := (groupPairs_keys_mem rest k2).mp
        rw [hrec] at this
        exact this (by simp)
      have hkk2 : k ≤ k2 := hk_le k2 hk2mem
      by_cases hk : k = k2
      · simp only [groupPairs, hrec, if_pos hk, List.map_cons]
        simp only [List.map_cons] at ihr
        refine List.pairwise_cons.mpr ⟨?_, (List.pairwise_cons.mp ihr).2⟩
        intro x hx
        have := (List.pairwise_cons.mp ihr).1 x hx
        omega
      · simp only [groupPairs, hrec, if_neg hk, List.map_cons]
        simp only [List.map_cons] at ihr
        refine List.pairwise_cons.mpr ⟨?_, ihr⟩
        intro x hx
        rcases List.mem_cons.mp hx with h1 | h2
        · subst h1
          omega
        · have := (List.pairwise_cons.mp ihr).1 x h2
          omega

theorem group_facts (p t : List Char) (hp : p ≠ []) (hnl : '\n' ∉ p) :
    ∀ g ∈ lineMatchesOf t (grepMatch p t),
      g.1 < (dollars t).length
      ∧ g.2 ≠ []
      ∧ (∀ v ∈ g.2, v ∈ grepMatch p t ∧ g.1 = lineIdx t v.1
          ∧ startAt t g.1 ≤ v.1 ∧ v.1 < v.2 ∧ v.2 ≤ dollarAt t g.1 + 1)
      ∧ List.Pairwise (fun a b => a.2 ≤ b.1) g.2 := by
  intro g hg
  rw [lineMatches_spec p t hp] at hg
  have hmem := groupPairs_mem ((grepMatch p t).map (fun m => (lineIdx t m.1, m))) g hg
  have hvfact : ∀ v ∈ g.2, v ∈ grepMatch p t ∧ g.1 = lineIdx t v.1 := by
    intro v hv
    have hin := hmem.2 v hv
    obtain ⟨m, hm, hpair⟩ := List.mem_map.mp hin
    have h1 : lineIdx t m.1 = g.1 := congrArg Prod.fst hpair
    have h2 : m = v := congrArg Prod.snd hpair
    subst h2
    exact ⟨hm, h1.symm⟩
  refine ⟨?_, hmem.1, ?_, ?_⟩
  · cases hne : g.2 with
    | nil => exact absurd hne hmem.1
    | cons w ws =>
      have := hvfact w (by rw [hne]; exact List.mem_cons_self _ _)
      rw [this.2]
      exact lineIdx_lt_dollars t w.1
  · intro v hv
    have hf := hvfact v hv
    have hsp := span_in_line p t hp hnl v hf.1
    rw [hf.2]
    exact ⟨hf.1, rfl, hsp.1, hsp.2.1, hsp.2.2.1⟩
  · have hsub := groupPairs_sublist ((grepMatch p t).map (fun m => (lineIdx t m.1, m))) g hg
    have hmap : ((grepMatch p t).map (fun m => (lineIdx t m.1, m))).map Prod.snd
        = grepMatch p t := by
      rw [List.map_map]
      show List.map (fun m => m) (grepMatch p t) = grepMatch p t
      exact List.map_id' _
    rw [hmap] at hsub
    exact (findIterF_pairwise p hp t.length t 0 (le_refl _)).sublist hsub

theorem stripMarkersF_congr :
    ∀ (fuel1 fuel2 : Nat) (s : List Char), s.length ≤ fuel1 → s.length ≤ fuel2 →
      stripMarkersF fuel1 s = stripMarkersF fuel2 s := by
  intro fuel1
  induction fuel1 with
  | zero =>
    intro fuel2 s h1 h2
    have hs : s = [] := List.eq_nil_of_length_eq_zero (by omega)
    subst hs
    cases fuel2 <;> rfl
  | succ f ih =>
    intro fuel2 s h1 h2
    cases s with
    | nil => cases fuel2 <;> rfl
    | cons c rest =>
      cases fuel2 with
      | zero => simp at h2
      | succ f2 =>
        simp only [stripMarkersF]
        simp only [List.length_cons] at h1 h2
        by_cases hred : ansiRed.isPrefixOf (c :: rest) = true
        · rw [if_pos hred, if_pos hred]
          refine ih f2 _ ?_ ?_ <;> simp only [List.length_drop] <;> omega
        · rw [if_neg hred, if_neg hred]
          by_cases hreset : ansiReset.isPrefixOf (c :: rest) = true
          · rw [if_pos hreset, if_pos hreset]
            refine ih f2 _ ?_ ?_ <;> simp only [List.length_drop] <;> omega
          · rw [if_neg hreset, if_neg hreset]
            rw [ih f2 rest (by omega) (by omega)]

theorem stripMarkersF_eq (fuel : Nat) (s : List Char) (h : s.length ≤ fuel) :
    stripMarkersF fuel s = stripMarkers s :=
  stripMarkersF_congr fuel s.length s h (le_refl _)

theorem marker_head_false (c : Char) (l : List Char) (hc : c ≠ escChar) :
    ansiRed.isPrefixOf (c :: l) = false ∧ ansiReset.isPrefixOf (c :: l) = false := by
  have hbe : (escChar == c) = false := by
    simp only [beq_eq_false_iff_ne]
    exact Ne.symm hc
  constructor
  · simp [ansiRed, List.isPrefixOf, hbe]
  · simp [ansiReset, List.isPrefixOf, hbe]

theorem strip_cons_clean (c : Char) (s : List Char) (hc : c ≠ escChar) :
    stripMarkers (c :: s) = c :: stripMarkers s := by
  have hmf := marker_head_false c s hc
  show stripMarkersF (c :: s).length (c :: s) = _
  simp only [List.length_cons, stripMarkersF]
  rw [if_neg (by rw [hmf.1]; exact Bool.false_ne_true), if_neg (by rw [hmf.2]; exact Bool.false_ne_true)]
  rfl

theorem isPrefixOf_append_self (p s : List Char) : p.isPrefixOf (p ++ s) = true := by
  rw [isPrefixOf_iff_take]
  exact List.take_left p s

theorem red_not_prefix_of_reset (s : List Char) :
    ansiRed.isPrefixOf (ansiReset ++ s) = false := rfl

theorem strip_red (s : List Char) : stripMarkers (ansiRed ++ s) = stripMarkers s := by
  have hlen : (ansiRed ++ s).length = s.length + 5 := by simp [ansiRed]
  show stripMarkersF (ansiRed ++ s).length (ansiRed ++ s) = _
  rw [hlen]
  have hshape : ansiRed ++ s = escChar :: '[' :: '3' :: '1' :: 'm' :: s := rfl
  rw [hshape]
  have hpre : ansiRed.isPrefixOf (escChar :: '[' :: '3' :: '1' :: 'm' :: s) = true := by
    rw [← hshape]
    exact isPrefixOf_append_self _ _
  have hstep : s.length + 5 = (s.length + 4) + 1 := rfl
  rw [hstep]
  simp only [stripMarkersF]
  rw [if_pos hpre]
  show stripMarkersF (s.length + 4) s = _
  exact stripMarkersF_eq _ _ (by omega)

theorem strip_reset (s : List Char) : stripMarkers (ansiReset ++ s) = stripMarkers s := by
  have hlen : (ansiReset ++ s).length = s.length + 4 := by simp [ansiReset]
  show stripMarkersF (ansiReset ++ s).length (ansiReset ++ s) = _
  rw [hlen]
  have hshape : ansiReset ++ s = escChar :: '[' :: '0' :: 'm' :: s := rfl
  rw [hshape]
  have hpre : ansiReset.isPrefixOf (escChar :: '[' :: '0' :: 'm' :: s) = true := by
    rw [← hshape]
    exact isPrefixOf_append_self _ _
  have hred : ansiRed.isPrefixOf (escChar :: '[' :: '0' :: 'm' :: s) = false := rfl
  have hstep : s.length + 4 = (s.length + 3) + 1 := rfl
  rw [hstep]
  simp only [stripMarkersF]
  rw [if_neg (by rw [hred]; exact Bool.false_ne_true), if_pos hpre]
  show stripMarkersF (s.length + 3) s = _
  exact stripMarkersF_eq _ _ (by omega)

theorem strip_nil : stripMarkers [] = [] := rfl

theorem strip_clean_append (xs ys : List Char) (hclean : ∀ c ∈ xs, c ≠ escChar) :
    stripMarkers (xs ++ ys) = xs ++ stripMarkers ys := by
  induction xs with
  | nil => simp
  | cons c xs ih =>
    have hc : c ≠ escChar := hclean c (List.mem_cons_self _ _)
    have hrest := ih (fun w hw => hclean w (List.mem_cons_of_mem _ hw))
    rw [List.cons_append, strip_cons_clean c _ hc, hrest]
    rfl

theorem sliceL_glue (t : List Char) (a b c : Nat) (h1 : a ≤ b) (h2 : b ≤ c) :
    sliceL t a b ++ sliceL t b c = sliceL t a c := by
  unfold sliceL
  have hd : t.drop b = (t.drop a).drop (b - a) := by
    rw [List.drop_drop]
    congr 1
    omega
  rw [hd, ← List.take_add]
  congr 1
  omega

theorem sliceL_subset (t : List Char) (a b : Nat) : ∀ c ∈ sliceL t a b, c ∈ t := by
  intro c hc
  unfold sliceL at hc
  exact ((List.take_sublist _ _).trans (List.drop_sublist _ _)).subset hc

theorem strip_colorizeLine (t : List Char) (hesc : escChar ∉ t) (d : Nat) :
    ∀ (ms : List (Nat × Nat)) (start : Nat) (rest : List Char),
      (∀ m ∈ ms, m.1 < m.2 ∧ m.2 ≤ d + 1) →
      List.Pairwise (fun a b => a.2 ≤ b.1) ms →
      (∀ m ∈ ms, start ≤ m.1) →
      stripMarkers (colorizeLine t d start ms ++ rest)
        = sliceL t start (d + 1) ++ stripMarkers rest := by
  have hcl : ∀ (a b : Nat), ∀ c ∈ sliceL t a b, c ≠ escChar :=
    fun a b c hc he => hesc (he ▸ sliceL_subset t a b c hc)
  intro ms
  induction ms with
  | nil =>
    intro start rest _ _ _
    simp only [colorizeLine]
    exact strip_clean_append _ _ (hcl _ _)
  | cons m ms ih =>
    intro start rest hb hpw hstart
    have hs : start ≤ m.1 := hstart m (List.mem_cons_self _ _)
    have hm := hb m (List.mem_cons_self _ _)
    simp only [colorizeLine]
    simp only [List.append_assoc]
    rw [strip_clean_append _ _ (hcl _ _), strip_red, strip_clean_append _ _ (hcl _ _),
      strip_reset]
    rw [ih m.2 rest (fun m' hm' => hb m' (List.mem_cons_of_mem _ hm'))
      (List.pairwise_cons.mp hpw).2 (fun m' hm' => (List.pairwise_cons.mp hpw).1 m' hm')]
    rw [← List.append_assoc, sliceL_glue t start m.1 m.2 hs (le_of_lt hm.1),
      ← List.append_assoc, sliceL_glue t start m.2 (d + 1) (by omega) hm.2]

theorem strip_flatten_groups (t : List Char) (hesc : escChar ∉ t) :
    ∀ (gs : List (Nat × List (Nat × Nat))),
      (∀ g ∈ gs, g.1 < (dollars t).length
        ∧ (∀ v ∈ g.2, startAt t g.1 ≤ v.1 ∧ v.1 < v.2 ∧ v.2 ≤ dollarAt t g.1 + 1)
        ∧ List.Pairwise (fun a b => a.2 ≤ b.1) g.2) →
      stripMarkers ((gs.map (fun g =>
          colorizeLine t ((lineSpansRaw t).getD g.1 (0, 0)).2
            ((lineSpansRaw t).getD g.1 (0, 0)).1 g.2)).flatten)
        = (gs.map (fun g =>
            sliceL t ((lineSpansCat t).getD g.1 (0, 0)).1
              ((lineSpansCat t).getD g.1 (0, 0)).2)).flatten := by
  intro gs
  induction gs with
  | nil => intro _; rfl
  | cons g gs ih =>
    intro hf
    have hg := hf g (List.mem_cons_self _ _)
    have hlen1 : g.1 < (lineStarts t).length := by
      rw [lineStarts_length]
      rw [dollars_length] at hg
      omega
    have hsd : (lineSpansRaw t).getD g.1 (0, 0) = (startAt t g.1, dollarAt t g.1) := by
      unfold lineSpansRaw
      exact getD_zip_of_lt (lineStarts t) (dollars t) g.1 hlen1 hg.1
    have hlenz : g.1 < (lineSpansRaw t).length := by
      unfold lineSpansRaw
      rw [List.length_zip, lineStarts_length, dollars_length]
      rw [dollars_length] at hg
      omega
    have hsp : (lineSpansCat t).getD g.1 (0, 0) = (startAt t g.1, dollarAt t g.1 + 1) := by
      unfold lineSpansCat
      rw [getD_map_of_lt (fun sd => (sd.1, sd.2 + 1)) (lineSpansRaw t) (0, 0) (0, 0) g.1 hlenz,
        hsd]
    simp only [List.map_cons, List.flatten_cons]
    rw [hsd, hsp]
    rw [strip_colorizeLine t hesc (dollarAt t g.1) g.2 (startAt t g.1) _
      (fun v hv => ⟨(hg.2.1 v hv).2.1, (hg.2.1 v hv).2.2⟩) hg.2.2
      (fun v hv => (hg.2.1 v hv).1)]
    rw [ih (fun g' hg' => hf g' (List.mem_cons_of_mem _ hg'))]

/-- C3 (amended): for every matcher whose pattern contains no newline,
applied to a text containing no ANSI escape character, deleting every
occurrence of the start-color and reset markers from the highlighted form
`_colorized` yields exactly the result's canonical string value. -/
theorem highlight_strip_round_trip (p t : List Char) (hl : Bool) (hp : p ≠ [])
    (hnl : '\n' ∉ p) (hesc : escChar ∉ t) :
    stripMarkers ((grepApply ⟨p, hl⟩ (.str t)).colorized)
      = (grepApply ⟨p, hl⟩ (.str t)).str := by
  show stripMarkers (colorizedOf t (grepMatch p t)) = grepStrOf t (grepMatch p t)
  unfold colorizedOf grepStrOf matchedLinesOf
  exact strip_flatten_groups t hesc (lineMatchesOf t (grepMatch p t))
    (fun g hg =>
      have hx := group_facts p t hp hnl g hg
      ⟨hx.1, fun v hv => ⟨(hx.2.2.1 v hv).2.2.1, (hx.2.2.1 v hv).2.2.2.1,
        (hx.2.2.1 v hv).2.2.2.2⟩, hx.2.2.2⟩)

/-- Witness for C3's amended theorem at pattern `"b"` on text `"ab\ncb"`. -/
theorem highlight_strip_round_trip_witness :
    ("b".toList ≠ [] ∧ '\n' ∉ "b".toList ∧ escChar ∉ "ab\ncb".toList)
    ∧ stripMarkers ((grepApply ⟨"b".toList, true⟩ (.str "ab\ncb".toList)).colorized)
      = (grepApply ⟨"b".toList, true⟩ (.str "ab\ncb".toList)).str :=
  ⟨⟨by decide, by decide, by decide⟩,
   highlight_strip_round_trip "b".toList "ab\ncb".toList true (by decide) (by decide) (by decide)⟩

theorem containsSub_iff_exists (p : List Char) :
    ∀ l : List Char, (containsSub p l = true ↔ ∃ i, p.isPrefixOf (l.drop i) = true) := by
  intro l
  induction l with
  | nil =>
    simp only [containsSub, List.isEmpty_iff]
    constructor
    · intro h
      subst h
      exact ⟨0, rfl⟩
    · rintro ⟨i, hi⟩
      simp only [List.drop_nil] at hi
      have := isPrefixOf_length_le p _ hi
      simp only [List.length_nil] at this
      exact List.eq_nil_of_length_eq_zero (by omega)
  | cons c rest ih =>
    simp only [containsSub, Bool.or_eq_true, ih]
    constructor
    · rintro (h | ⟨i, hi⟩)
      · refine ⟨0, ?_⟩
        rw [List.drop_zero]
        exact h
      · refine ⟨i + 1, ?_⟩
        rw [List.drop_succ_cons]
        exact hi
    · rintro ⟨i, hi⟩
      cases i with
      | zero =>
        rw [List.drop_zero] at hi
        exact Or.inl hi
      | succ j =>
        rw [List.drop_succ_cons] at hi
        exact Or.inr ⟨j, hi⟩

theorem isPrefixOf_subset (p l : List Char) (h : p.isPrefixOf l = true) :
    ∀ c ∈ p, c ∈ l := by
  rw [isPrefixOf_iff_take] at h
  intro c hc
  rw [← h] at hc
  exact (List.take_sublist _ _).subset hc

theorem isPrefixOf_of_take (p l : List Char) (j : Nat) (h : p.isPrefixOf (l.take j) = true) :
    p.isPrefixOf l = true ∧ p.length ≤ j := by
  have hlen := isPrefixOf_length_le p _ h
  rw [List.length_take] at hlen
  have hle : p.length ≤ j ∧ p.length ≤ l.length := Nat.le_min.mp hlen
  refine ⟨?_, hle.1⟩
  rw [isPrefixOf_iff_take] at h ⊢
  rw [List.take_take, Nat.min_eq_left hle.1] at h
  exact h

theorem sliceL_drop (t : List Char) (a b i : Nat) :
    (sliceL t a b).drop i = (t.drop (a + i)).take (b - a - i) := by
  unfold sliceL
  rw [List.drop_take, List.drop_drop]

theorem sliceL_getElem? (t : List Char) (a b j : Nat) (hj : j < b - a) :
    (sliceL t a b)[j]? = t[a + j]? := by
  unfold sliceL
  rw [List.getElem?_take, if_pos hj, List.getElem?_drop]

theorem sliceL_length_le (t : List Char) (a b : Nat) : (sliceL t a b).length ≤ b - a := by
  unfold sliceL
  rw [List.length_take, List.length_drop]
  omega

theorem lineContent_no_nl (t : List Char) (k : Nat) (hk : k ≤ (nlPos t 0).length) :
    '\n' ∉ lineContent t k := by
  intro hmem
  unfold lineContent at hmem
  obtain ⟨j, hj⟩ := List.mem_iff_getElem?.mp hmem
  have hlen : j < (sliceL t (startAt t k) (dollarAt t k)).length := (List.getElem?_eq_some.mp hj).1
  have hjb : j < dollarAt t k - startAt t k := by
    have := sliceL_length_le t (startAt t k) (dollarAt t k)
    omega
  rw [sliceL_getElem? t _ _ j hjb] at hj
  have hmemnl : (startAt t k + j) ∈ nlPos t 0 := (nl_mem_iff t _).mpr hj
  have hsd := startAt_le_dollarAt t k hk
  exact no_nl_between t k hk _ hmemnl ⟨by omega, by omega⟩

theorem trailing_nl_mem (t : List Char) (hlast : t.getLast? = some '\n') :
    (t.length - 1) ∈ nlPos t 0 := by
  rw [nl_mem_iff, ← List.getLast?_eq_getElem?]
  exact hlast

theorem realLines_pos (t : List Char) (hne : t ≠ []) : 1 ≤ realLines t := by
  unfold realLines
  rw [if_neg hne]
  by_cases h : t.getLast? = some '\n'
  · rw [if_pos h]
    have hmem := trailing_nl_mem t h
    have hlen : 1 ≤ (nlPos t 0).length := by
      cases hnl : nlPos t 0 with
      | nil => rw [hnl] at hmem; simp at hmem
      | cons a l => simp
    rw [dollars_length]
    omega
  · rw [if_neg h, dollars_length]
    omega

theorem lt_realLines_le_nl (t : List Char) (k : Nat) (hk : k < realLines t) :
    k ≤ (nlPos t 0).length := by
  unfold realLines at hk
  by_cases hne : t = []
  · rw [if_pos hne] at hk
    omega
  · rw [if_neg hne] at hk
    by_cases hl : t.getLast? = some '\n'
    · rw [if_pos hl, dollars_length] at hk
      omega
    · rw [if_neg hl, dollars_length] at hk
      omega

theorem key_lt_realLines (p t : List Char) (hp : p ≠ []) (m : Nat × Nat)
    (hm : m ∈ grepMatch p t) : lineIdx t m.1 < realLines t := by
  have hplen : 1 ≤ p.length := by
    cases p
    · exact absurd rfl hp
    · simp
  have hs := findIterF_sound p hp t.length t 0 (le_refl _) m hm
  have hpre : p.isPrefixOf (t.drop m.1) = true := by simpa using hs.2.2
  have hlen := isPrefixOf_length_le p _ hpre
  rw [List.length_drop] at hlen
  have hm1 : m.1 < t.length := by omega
  have hne : t ≠ [] := by
    intro h
    subst h
    simp at hm1
  unfold realLines
  rw [if_neg hne]
  by_cases h : t.getLast? = some '\n'
  · rw [if_pos h, dollars_length]
    have hmem := trailing_nl_mem t h
    have hcnt : (nlPos t 0).countP (fun j => decide (j < m.1)) ≠ (nlPos t 0).length := by
      intro hEq
      have hall := List.countP_eq_length.mp hEq
      have := hall _ hmem
      simp only [decide_eq_true_eq] at this
      omega
    have hle := lineIdx_le_nl t m.1
    unfold lineIdx at hle ⊢
    omega
  · rw [if_neg h, dollars_length]
    have := lineIdx_le_nl t m.1
    omega

theorem key_mem_of_line (p t : List Char) (hp : p ≠ []) (hnl : '\n' ∉ p) (k : Nat)
    (hk : k < realLines t)
    (hinf : containsSub p (lineContent t k) = true) :
    ∃ m ∈ grepMatch p t, lineIdx t m.1 = k := by
  have hplen : 1 ≤ p.length := by
    cases p
    · exact absurd rfl hp
    · simp
  have hkle : k ≤ (nlPos t 0).length := lt_realLines_le_nl t k hk
  have hsd := startAt_le_dollarAt t k hkle
  obtain ⟨i, hi⟩ := (containsSub_iff_exists p _).mp hinf
  rw [show (lineContent t k).drop i
      = (t.drop (startAt t k + i)).take (dollarAt t k - startAt t k - i) from
      sliceL_drop t _ _ i] at hi
  obtain ⟨hpre, hple⟩ := isPrefixOf_of_take p _ _ hi
  have hqb : startAt t k + i + p.length ≤ dollarAt t k := by omega
  obtain ⟨m, hm, hm1, hm2⟩ :=
    findIterF_complete p hp t.length t 0 (startAt t k + i) (le_refl _) hpre
  refine ⟨m, hm, ?_⟩
  have hsound := findIterF_sound p hp t.length t 0 (le_refl _) m hm
  have hpre_m : p.isPrefixOf (t.drop m.1) = true := by simpa using hsound.2.2
  have hm2eq : m.2 = m.1 + p.length := hsound.2.1
  have hslow : startAt t k ≤ m.1 := by
    by_contra hcon
    push_neg at hcon
    have hk1 : 1 ≤ k := by
      by_contra h0
      push_neg at h0
      have hk0 : k = 0 := by omega
      rw [hk0, startAt_zero] at hcon
      omega
    have hd' := startAt_eq t k hk1 hkle
    have hd'mem : (nlPos t 0).getD (k - 1) 0 ∈ nlPos t 0 := getD_mem_of_lt _ _ (by omega)
    have hd'nl : t[(nlPos t 0).getD (k - 1) 0]? = some '\n' := (nl_mem_iff t _).mp hd'mem
    have hmemp : '\n' ∈ p := by
      refine nl_mem_of_pos p t m.1 hpre_m ((nlPos t 0).getD (k - 1) 0) ?_ ?_ hd'nl
      · omega
      · omega
    exact hnl hmemp
  unfold lineIdx
  refine countP_lt_eq m.1 (nlPos t 0) (nlPos_pairwise t 0) k hkle ?_ ?_
  · intro i' hi'
    have hk1 : 1 ≤ k := by omega
    have hle := pairwise_getD_le (nlPos t 0) (nlPos_pairwise t 0) i' (k - 1) (by omega) (by omega)
    have hd' := startAt_eq t k hk1 hkle
    omega
  · intro hlt
    have hdk := dollarAt_eq_nl t k hlt
    omega

theorem sorted_eq_of_mem_iff :
    ∀ (l1 l2 : List Nat), List.Pairwise (· < ·) l1 → List.Pairwise (· < ·) l2 →
      (∀ x, x ∈ l1 ↔ x ∈ l2) → l1 = l2 := by
  intro l1
  induction l1 with
  | nil =>
    intro l2 _ _ hmm
    cases l2 with
    | nil => rfl
    | cons b l2' =>
      exfalso
      have := (hmm b).mpr (List.mem_cons_self _ _)
      simp at this
  | cons a l1' ih =>
    intro l2 h1 h2 hmm
    cases l2 with
    | nil =>
      exfalso
      have := (hmm a).mp (List.mem_cons_self _ _)
      simp at this
    | cons b l2' =>
      have hab : a = b := by
        have ha2 : a ∈ b :: l2' := (hmm a).mp (List.mem_cons_self _ _)
        have hb1 : b ∈ a :: l1' := (hmm b).mpr (List.mem_cons_self _ _)
        rcases List.mem_cons.mp ha2 with h | h
        · exact h
        · have hba : b < a := (List.pairwise_cons.mp h2).1 a h
          rcases List.mem_cons.mp hb1 with h' | h'
          · exact h'.symm
          · have : a < b := (List.pairwise_cons.mp h1).1 b h'
            omega
      subst hab
      congr 1
      refine ih l2' (List.pairwise_cons.mp h1).2 (List.pairwise_cons.mp h2).2 ?_
      intro x
      constructor
      · intro hx
        have hax : a < x := (List.pairwise_cons.mp h1).1 x hx
        have := (hmm x).mp (List.mem_cons_of_mem _ hx)
        rcases List.mem_cons.mp this with h | h
        · exact absurd h (by omega)
        · exact h
      · intro hx
        have hax : a < x := (List.pairwise_cons.mp h2).1 x hx
        have := (hmm x).mpr (List.mem_cons_of_mem _ hx)
        rcases List.mem_cons.mp this with h | h
        · exact absurd h (by omega)
        · exact h

theorem keys_eq_range (p t : List Char) (hp : p ≠ []) (hnl : '\n' ∉ p)
    (hall : ∀ k, k < realLines t → containsSub p (lineContent t k) = true) :
    (lineMatchesOf t (grepMatch p t)).map Prod.fst = List.range (realLines t) := by
  apply sorted_eq_of_mem_iff
  · rw [lineMatches_spec p t hp]
    apply groupPairs_keys_pairwise
    rw [List.map_map]
    show List.Pairwise (· ≤ ·) ((grepMatch p t).map (fun m => lineIdx t m.1))
    rw [List.pairwise_map]
    refine (spans_sorted_starts p t hp).imp ?_
    intro a b hab
    unfold lineIdx
    refine List.countP_mono_left ?_
    intro j _ hj
    simp only [decide_eq_true_eq] at hj ⊢
    omega
  · exact List.pairwise_lt_range _
  · intro x
    rw [List.mem_range]
    constructor
    · intro hx
      rw [lineMatches_spec p t hp] at hx
      have hx2 := (groupPairs_keys_mem _ x).mp hx
      rw [List.map_map] at hx2
      have hx3 : x ∈ (grepMatch p t).map (fun m => lineIdx t m.1) := hx2
      obtain ⟨m, hm, hEq⟩ := List.mem_map.mp hx3
      rw [← hEq]
      exact key_lt_realLines p t hp m hm
    · intro hx
      obtain ⟨m, hm, hEq⟩ := key_mem_of_line p t hp hnl x hx (hall x hx)
      rw [lineMatches_spec p t hp]
      apply (groupPairs_keys_mem _ x).mpr
      rw [List.map_map]
      show x ∈ (grepMatch p t).map (fun m => lineIdx t m.1)
      exact List.mem_map.mpr ⟨m, hm, hEq⟩

theorem lineSpansCat_getD (t : List Char) (k : Nat) (hk : k < (dollars t).length) :
    (lineSpansCat t).getD k (0, 0) = (startAt t k, dollarAt t k + 1) := by
  have hlen1 : k < (lineStarts t).length := by
    rw [lineStarts_length]
    rw [dollars_length] at hk
    omega
  have hlenz : k < (lineSpansRaw t).length := by
    unfold lineSpansRaw
    rw [List.length_zip, lineStarts_length, dollars_length]
    rw [dollars_length] at hk
    omega
  unfold lineSpansCat
  rw [getD_map_of_lt (fun sd => (sd.1, sd.2 + 1)) (lineSpansRaw t) (0, 0) (0, 0) k hlenz]
  unfold lineSpansRaw
  rw [getD_zip_of_lt (lineStarts t) (dollars t) k hlen1 hk]
  rfl

theorem slice_to_end (t : List Char) (a b : Nat) (hb : t.length ≤ b) :
    sliceL t a b = t.drop a := by
  unfold sliceL
  exact List.take_of_length_le (by rw [List.length_drop]; omega)

theorem last_nl_getD (t : List Char) (hl : t.getLast? = some '\n') :
    (nlPos t 0).getD ((nlPos t 0).length - 1) 0 = t.length - 1 := by
  have hmem := trailing_nl_mem t hl
  have hpos : 0 < (nlPos t 0).length := List.length_pos_of_mem hmem
  obtain ⟨i, hi, hig⟩ := List.mem_iff_getElem.mp hmem
  have hgi : (nlPos t 0).getD i 0 = t.length - 1 := by
    rw [List.getD_eq_getElem _ 0 hi]
    exact hig
  have hge : t.length - 1 ≤ (nlPos t 0).getD ((nlPos t 0).length - 1) 0 := by
    have := pairwise_getD_le (nlPos t 0) (nlPos_pairwise t 0) i ((nlPos t 0).length - 1)
      (by omega) (by omega)
    omega
  have hlt : (nlPos t 0).getD ((nlPos t 0).length - 1) 0 < t.length :=
    nl_lt_length t _ (getD_mem_of_lt _ _ (by omega))
  omega

theorem dollarAt_realLines_last (t : List Char) (hne : t ≠ []) :
    t.length ≤ dollarAt t (realLines t - 1) + 1 := by
  unfold realLines
  rw [if_neg hne]
  by_cases hl : t.getLast? = some '\n'
  · rw [if_pos hl, dollars_length]
    simp only [Nat.add_sub_cancel]
    have hpos : 0 < (nlPos t 0).length := List.length_pos_of_mem (trailing_nl_mem t hl)
    rw [dollarAt_eq_nl t _ (by omega), last_nl_getD t hl]
    have hlen1 : 1 ≤ t.length := by
      cases t
      · exact absurd rfl hne
      · simp
    omega
  · rw [if_neg hl, dollars_length]
    simp only [Nat.add_sub_cancel]
    rw [dollarAt_last]
    omega

theorem telescope_lines (t : List Char) (hne : t ≠ []) :
    ∀ (c j : Nat), 1 ≤ c → j + c = realLines t →
      ((List.range' j c).map (fun k => sliceL t (startAt t k) (dollarAt t k + 1))).flatten
        = t.drop (startAt t j) := by
  intro c
  induction c with
  | zero =>
    intro j h1 _
    omega
  | succ c ih =>
    intro j h1 hc
    cases c with
    | zero =>
      rw [List.range'_succ]
      simp only [List.range'_zero, List.map_cons, List.map_nil, List.flatten_cons,
        List.flatten_nil, List.append_nil]
      have hj : j = realLines t - 1 := by omega
      have hbound : t.length ≤ dollarAt t j + 1 := by
        rw [hj]
        exact dollarAt_realLines_last t hne
      exact slice_to_end t _ _ hbound
    | succ c' =>
      rw [List.range'_succ]
      simp only [List.map_cons, List.flatten_cons]
      rw [ih (j + 1) (by omega) (by omega)]
      have hkle : j + 1 ≤ (nlPos t 0).length := lt_realLines_le_nl t (j + 1) (by omega)
      have hklt : j < (nlPos t 0).length := by omega
      rw [startAt_succ_eq t j hklt]
      have hab : startAt t j ≤ dollarAt t j + 1 := by
        have := startAt_le_dollarAt t j (by omega)
        omega
      unfold sliceL
      rw [show t.drop (dollarAt t j + 1)
          = (t.drop (startAt t j)).drop (dollarAt t j + 1 - startAt t j) from by
        rw [List.drop_drop]
        congr 1
        omega]
      exact List.take_append_drop _ _

theorem grepStr_full (p t : List Char) (hp : p ≠ [])
    (hall : ∀ k, k < realLines t → containsSub p (lineContent t k) = true) :
    grepStrOf t (grepMatch p t) = t := by
  by_cases hne : t = []
  · subst hne
    rw [show grepMatch p ([] : List Char) = [] from rfl]
    exact grepStrOf_nil []
  · have hL1 : 1 ≤ realLines t := realLines_pos t hne
    have hnl : '\n' ∉ p := by
      intro hmem
      have hinf := hall 0 (by omega)
      obtain ⟨i, hi⟩ := (containsSub_iff_exists p _).mp hinf
      have hsub := isPrefixOf_subset p _ hi '\n' hmem
      have hsub2 : '\n' ∈ lineContent t 0 := (List.drop_sublist _ _).subset hsub
      exact lineContent_no_nl t 0 (Nat.zero_le _) hsub2
    have hkeys := keys_eq_range p t hp hnl hall
    unfold grepStrOf matchedLinesOf
    rw [show (lineMatchesOf t (grepMatch p t)).map (fun g =>
          sliceL t ((lineSpansCat t).getD g.1 (0, 0)).1 ((lineSpansCat t).getD g.1 (0, 0)).2)
        = ((lineMatchesOf t (grepMatch p t)).map Prod.fst).map (fun k =>
          sliceL t ((lineSpansCat t).getD k (0, 0)).1 ((lineSpansCat t).getD k (0, 0)).2) from by
      rw [List.map_map]
      rfl]
    rw [hkeys]
    have hmapeq : (List.range (realLines t)).map (fun k =>
          sliceL t ((lineSpansCat t).getD k (0, 0)).1 ((lineSpansCat t).getD k (0, 0)).2)
        = (List.range (realLines t)).map (fun k =>
          sliceL t (startAt t k) (dollarAt t k + 1)) := by
      refine List.map_congr_left ?_
      intro k hk
      rw [List.mem_range] at hk
      have hkd : k < (dollars t).length := by
        have := lt_realLines_le_nl t k hk
        rw [dollars_length]
        omega
      rw [lineSpansCat_getD t k hkd]
    rw [hmapeq]
    rw [List.range_eq_range']
    rw [telescope_lines t hne (realLines t) 0 (by omega) (by omega)]
    rw [startAt_zero, List.drop_zero]

/-- C4: if every line of the text contains an occurrence of the (non-empty)
pattern, the matcher's result is equal to the text under the equality
protocol (string values compared after coercion), and re-feeding the
fully-matched result through the same matcher returns an equal result. -/
theorem full_match_equality (p t : List Char) (hl : Bool) (hp : p ≠ [])
    (hall : ∀ k, k < realLines t → containsSub p (lineContent t k) = true) :
    grepResultEq (grepApply ⟨p, hl⟩ (.str t)) (.str t)
    ∧ grepResultEq (grepApply ⟨p, hl⟩ (.res (grepApply ⟨p, hl⟩ (.str t))))
        (.res (grepApply ⟨p, hl⟩ (.str t))) := by
  have hmain : (grepApply ⟨p, hl⟩ (.str t)).str = t := grepStr_full p t hp hall
  constructor
  · show (grepApply ⟨p, hl⟩ (.str t)).str = pyStr (.str t)
    exact hmain
  · show (grepApply ⟨p, hl⟩ (.res (grepApply ⟨p, hl⟩ (.str t)))).str
      = pyStr (.res (grepApply ⟨p, hl⟩ (.str t)))
    show grepStrOf (grepApply ⟨p, hl⟩ (.str t)).str
        (grepMatch p (grepApply ⟨p, hl⟩ (.str t)).str)
      = (grepApply ⟨p, hl⟩ (.str t)).str
    rw [hmain]
    exact grepStr_full p t hp hall

/-- Witness for C4 at pattern `"a"` on text `"ab\nca\n"` (every line
contains an `a`). -/
theorem full_match_equality_witness :
    ("a".toList ≠ []
      ∧ (∀ k, k < realLines "ab\nca\n".toList →
          containsSub "a".toList (lineContent "ab\nca\n".toList k) = true))
    ∧ grepResultEq (grepApply ⟨"a".toList, true⟩ (.str "ab\nca\n".toList))
        (.str "ab\nca\n".toList)
    ∧ grepResultEq
        (grepApply ⟨"a".toList, true⟩
          (.res (grepApply ⟨"a".toList, true⟩ (.str "ab\nca\n".toList))))
        (.res (grepApply ⟨"a".toList, true⟩ (.str "ab\nca\n".toList))) := by
  have hall : ∀ k, k < realLines "ab\nca\n".toList →
      containsSub "a".toList (lineContent "ab\nca\n".toList k) = true := by
    intro k hk
    have hk2 : k < 2 := by
      have he : realLines "ab\nca\n".toList = 2 := by decide
      omega
    have : k = 0 ∨ k = 1 := by omega
    rcases this with rfl | rfl <;> decide
  have h := full_match_equality "a".toList "ab\nca\n".toList true (by decide) hall
  exact ⟨⟨by decide, hall⟩, h.1, h.2⟩
